import Mathlib

/-!
Verification of the kati TypeScript reimplementation (a Make-compatible
build engine) against its natural-language specification.

The definitions below are a shallow embedding of the program's source:

* `src-ts/utils/strutil.ts`  — `splitSpace`, `joinStrings`, `hasPrefix`,
  `hasSuffix`, `Pattern`;
* `src-ts/var.ts`            — `Var` (`SimpleVar`, `RecursiveVar`,
  `UndefinedVar`), `Vars.lookup`, `parseCommandPrefixes`,
  `CommandEvaluator.eval`;
* `src-ts/core/ast.ts`       — `Value` (`Literal`, `ValueList`, `SymRef`,
  `VarRef`, `VarSubst`) and its `eval`, `AssignStmt.eval`;
* `src-ts/core/func.ts`      — `substFunc`, `filterFunc`, `filterOutFunc`,
  `getNumericValueForFunc`, `wordFunc`, `valueFunc`;
* `src-ts/dep.ts`            — `Rule`, `RuleMerger`, `applyOutputPattern`,
  `DepBuilder.buildPlan`;
* `src-ts/exec.ts`           — `Executor.execNode`'s command loop.

Machine strings are modelled by Lean `String`, JavaScript numbers used as
exit codes and word indices by `Nat`/`Int`.  Where the program can fail
(a thrown `Error`) the embedding returns `Except String`; where it can
also diverge (unbounded re-expansion of recursive variables) the
embedding takes a fuel parameter and returns `none` on exhaustion.
-/

namespace Kati

/-! ### String utilities (src-ts/utils/strutil.ts) -/

/-- Whitespace set of `splitSpace`'s regex `/[\x09\x0a\x0b\x0c\x0d ]+/`. -/
def isWS (c : Char) : Bool :=
  c = ' ' || c = '\x09' || c = '\x0a' || c = '\x0b' || c = '\x0c' || c = '\x0d'

/-- Accumulator pass of `splitSpace`: split on runs of whitespace and drop
empty words (the `.filter((word) => word.length > 0)` in the source). -/
def splitSpaceAux : List Char → List Char → List (List Char)
  | [], acc => if acc.isEmpty then [] else [acc.reverse]
  | c :: cs, acc =>
    if isWS c then
      if acc.isEmpty then splitSpaceAux cs []
      else acc.reverse :: splitSpaceAux cs []
    else splitSpaceAux cs (c :: acc)

/-- `splitSpace` from src-ts/utils/strutil.ts. -/
def splitSpace (s : String) : List String :=
  (splitSpaceAux s.toList []).map String.mk

/-- `joinStrings` from src-ts/utils/strutil.ts (`Array.join`). -/
def joinStrings (strings : List String) (separator : String) : String :=
  String.intercalate separator strings

/-- `hasPrefix(str, prefix)` from src-ts/utils/strutil.ts, on char lists. -/
def hasPrefix (str pre : List Char) : Bool :=
  pre.isPrefixOf str

/-- `hasSuffix(str, suffix)` from src-ts/utils/strutil.ts, on char lists. -/
def hasSuffix (str suf : List Char) : Bool :=
  suf.isSuffixOf str

/-- `Pattern` from src-ts/utils/strutil.ts: the pattern text together with
`pat.indexOf('%')` (`none` models JavaScript's `-1`). -/
structure Pattern where
  pat : String
  percentIndex : Option Nat

/-- The `Pattern` constructor: memoise the index of the first `%`. -/
def Pattern.make (pat : String) : Pattern :=
  ⟨pat, pat.toList.findIdx? (· = '%')⟩

/-- `Pattern.match` from the source (`match` is reserved in Lean): without a
`%` the word must equal the pattern; with one, the text before the `%` must
be a prefix and the text after it a suffix of the word. -/
def Pattern.matches (p : Pattern) (str : String) : Bool :=
  match p.percentIndex with
  | none => str == p.pat
  | some i =>
    hasPrefix str.toList (p.pat.toList.take i) &&
    hasSuffix str.toList (p.pat.toList.drop (i + 1))

/-- JavaScript `String.prototype.substring(start, end)` on char lists:
arguments are clamped and swapped when `start > end`. -/
def jsSubstring (s : List Char) (start endPos : Nat) : List Char :=
  (s.drop (min start endPos)).take (max start endPos - min start endPos)

/-- `Pattern.appendSubst(str, subst)` from src-ts/utils/strutil.ts. -/
def Pattern.appendSubst (p : Pattern) (str subst : String) : String :=
  match p.percentIndex with
  | none => if str == p.pat then subst else str
  | some i =>
    if hasPrefix str.toList (p.pat.toList.take i) &&
       hasSuffix str.toList (p.pat.toList.drop (i + 1)) then
      match subst.toList.findIdx? (· = '%') with
      | none => subst
      | some si =>
        let prefixLen := i
        let suffixLen := p.pat.length - i - 1
        let stem := jsSubstring str.toList prefixLen (str.length - suffixLen)
        String.mk (subst.toList.take si) ++ String.mk stem ++
          String.mk (subst.toList.drop (si + 1))
    else str

/-! ### Values and variables (src-ts/core/ast.ts, src-ts/var.ts)

The `Value` inductive covers the variants a variable environment can hold:
`Literal`, `ValueList`, `SymRef`, `VarRef`, `VarSubst`.  `Func` nodes
(dispatch into the function registry) are embedded separately as the
individual registry functions below.  Source `loc` fields are diagnostic
metadata and are not modelled. -/

inductive Value where
  | literal (s : String)
  | list (values : List Value)
  | symRef (name : String)
  | varRef (nameExpr : Value)
  | varSubst (nameExpr pattern subst : Value)

/-- `Var` from src-ts/var.ts: `SimpleVar` holds an expanded string,
`RecursiveVar` holds an unexpanded `Value` plus the original text of its
right-hand side, `UndefinedVar` is the shared sentinel for absent
bindings.  Origin, definition and location metadata, and the
readonly/deprecated/obsolete flags (never set on the paths verified here)
are not modelled. -/
inductive Var where
  | simple (v : String)
  | recursive (v : Value) (orig : String)
  | undef

/-- `isDefined()`: true for `SimpleVar` and `RecursiveVar`, false for
`UndefinedVar`. -/
def Var.isDefined : Var → Bool
  | .simple _ => true
  | .recursive _ _ => true
  | .undef => false

/-- `Var.string()`: a simple var returns its value, a recursive var its
original (unexpanded) text `orig_`, the undefined sentinel the empty
string. -/
def Var.string : Var → String
  | .simple v => v
  | .recursive _ orig => orig
  | .undef => ""

/-- The variable environment.  Modelled from the spec: the Evaluator
(`src-ts/evaluator.ts`, absent from the sources; only its callers are
present) keeps a global mapping from symbols to `Var`s.  A binding list
whose lookup takes the first match models the JavaScript `Map` used by
`Vars` in src-ts/var.ts. -/
def Vars := List (String × Var)

/-- `Vars.lookup` from src-ts/var.ts: return the binding, or the
`UndefinedVar` sentinel when the name is absent. -/
def Vars.lookup (env : Vars) (name : String) : Var :=
  match List.find? (fun p => p.1 == name) env with
  | some p => p.2
  | none => Var.undef

/-- Modelled from the spec: `Evaluator.setVar` (evaluator.ts is absent from
the sources) stores a binding in the global scope; shadowing by consing is
lookup-equivalent to `Map.set`. -/
def Vars.setVar (env : Vars) (name : String) (v : Var) : Vars :=
  (name, v) :: env

/-! ### Value evaluation

`Value.eval` from src-ts/core/ast.ts.  Expanding a `RecursiveVar`
re-evaluates its stored `Value` against the current environment, which in
the source can recurse without bound; the embedding spends one unit of
fuel on each such re-expansion and returns `none` when the fuel is gone. -/

/-- `Var.eval(ev)` for one expansion level: a simple var returns its
stored string, the undefined sentinel the empty string, a recursive var
re-evaluates its stored value through `recur` (the evaluator one fuel
level down). -/
def varEvalStep (recur : Value → Option String) : Var → Option String
  | .simple v => some v
  | .undef => some ""
  | .recursive v _ => recur v

mutual

/-- `Value.eval(ev)` for one expansion level: literals return their text,
lists concatenate, a `SymRef` looks its name up and evaluates the
variable, a `VarRef` first evaluates the name expression, a `VarSubst`
word-splits the variable's value and applies the pattern substitution to
each word.  `recur` re-enters the evaluator one fuel level down when a
recursive variable is expanded. -/
def evalStep (env : Vars) (recur : Value → Option String) : Value → Option String
  | .literal s => some s
  | .list vs => evalStepList env recur vs
  | .symRef name => varEvalStep recur (Vars.lookup env name)
  | .varRef nameExpr => do
    let name ← evalStep env recur nameExpr
    varEvalStep recur (Vars.lookup env name)
  | .varSubst nameExpr pattern subst => do
    let name ← evalStep env recur nameExpr
    let pat ← evalStep env recur pattern
    let sub ← evalStep env recur subst
    let varValue ← varEvalStep recur (Vars.lookup env name)
    if varValue = "" then pure ""
    else
      let p := Pattern.make pat
      pure (joinStrings ((splitSpace varValue).map
        (fun word => p.appendSubst word sub)) " ")

/-- `ValueList.eval`: children evaluated left to right and joined with no
separator. -/
def evalStepList (env : Vars) (recur : Value → Option String) :
    List Value → Option String
  | [] => some ""
  | v :: rest => do
    let s ← evalStep env recur v
    let tail ← evalStepList env recur rest
    pure (s ++ tail)

end

/-- `Value.eval(ev)` with fuel: each expansion of a recursive variable
descends one fuel level; exhausted fuel (`none`) models the source
recursing without bound. -/
def evalV : Nat → Vars → Value → Option String
  | 0, env, v => evalStep env (fun _ => none) v
  | fuel + 1, env, v => evalStep env (evalV fuel env) v

/-- `Var.eval(ev)` with fuel (the variable-level entry point used by
`SymRef.eval`). -/
def varEval (fuel : Nat) (env : Vars) (var : Var) : Option String :=
  match fuel with
  | 0 => varEvalStep (fun _ => none) var
  | f + 1 => varEvalStep (evalV f env) var

/-! ### Assignment evaluation (AssignStmt.eval, src-ts/core/ast.ts) -/

/-- `AssignOp` from src-ts/core/ast.ts. -/
inductive AssignOp where
  | eq
  | colonEq
  | plusEq
  | questionEq

/-- `AssignStmt.eval`: `=` stores the unevaluated right-hand side as a
`RecursiveVar` together with its original text; `:=` evaluates now and
stores a `SimpleVar`; `+=` appends (in place for a defined var, via
`appendVar`); `?=` assigns only when the current binding `isDefined()` is
false. -/
def evalAssign (fuel : Nat) (env : Vars) (op : AssignOp) (name : String)
    (rhs : Value) (origRhs : String) : Option Vars :=
  match op with
  | .eq => some (Vars.setVar env name (.recursive rhs origRhs))
  | .colonEq =>
    (evalV fuel env rhs).map fun value => Vars.setVar env name (.simple value)
  | .plusEq =>
    match Vars.lookup env name with
    | .simple s =>
      (evalV fuel env rhs).map fun buf =>
        Vars.setVar env name (.simple (s ++ " " ++ buf))
    | .recursive v orig =>
      some (Vars.setVar env name (.recursive (.list [v, .literal " ", rhs]) orig))
    | .undef =>
      (evalV fuel env rhs).map fun value => Vars.setVar env name (.simple value)
  | .questionEq =>
    if (Vars.lookup env name).isDefined then some env
    else (evalV fuel env rhs).map fun value =>
      Vars.setVar env name (.simple value)

/-! ### Built-in functions (src-ts/core/func.ts) -/

/-- `StrUtil.trimLeftSpace`: strip leading spaces and tabs
(regex `/^[ \t]+/`). -/
def trimLeftSpace (s : String) : String :=
  String.mk (s.toList.dropWhile (fun c => c = ' ' || c = '\x09'))

/-- `subst(from,to,text)`: with an empty `from` the source returns
`str + repl`; otherwise `str.split(pat).join(repl)` replaces every
non-overlapping occurrence left to right. -/
def substFunc (pat repl str : String) : String :=
  if pat = "" then str ++ repl
  else joinStrings (str.splitOn pat) repl

/-- Word list computed by `filterFunc`: the words of `text` for which some
pattern of `patBuf` matches (the inner loop's `break` makes the result a
plain filter). -/
def filterWords (patBuf text : String) : List String :=
  let patterns := (splitSpace patBuf).map Pattern.make
  (splitSpace text).filter (fun tok => patterns.any (fun pat => pat.matches tok))

/-- `filter(pats,text)` from src-ts/core/func.ts. -/
def filterFunc (patBuf text : String) : String :=
  joinStrings (filterWords patBuf text) " "

/-- Word list computed by `filterOutFunc`: the words of `text` matched by
no pattern of `patBuf`. -/
def filterOutWords (patBuf text : String) : List String :=
  let patterns := (splitSpace patBuf).map Pattern.make
  (splitSpace text).filter (fun tok => !patterns.any (fun pat => pat.matches tok))

/-- `filter-out(pats,text)` from src-ts/core/func.ts. -/
def filterOutFunc (patBuf text : String) : String :=
  joinStrings (filterOutWords patBuf text) " "

/-- Value of a decimal digit string. -/
def digitsVal (ds : List Char) : Nat :=
  ds.foldl (fun acc c => acc * 10 + (c.toNat - '0'.toNat)) 0

/-- JavaScript `parseInt(s, 10)`: skip leading whitespace, accept one
optional `+` or `-`, then read the maximal decimal-digit prefix;
`none` models `NaN` (no digits at all).  Any non-digit tail is ignored. -/
def parseIntJS (s : String) : Option Int :=
  let t := s.toList.dropWhile isWS
  let neg : Bool := t.head? == some '-'
  let rest := if t.head? == some '+' || t.head? == some '-' then t.tail else t
  let ds := rest.takeWhile Char.isDigit
  if ds.isEmpty then none
  else some (if neg then -(digitsVal ds : Int) else (digitsVal ds : Int))

/-- `getNumericValueForFunc` from src-ts/core/func.ts: trim spaces/tabs,
`parseInt` base 10, and map `NaN` or a negative result to `-1`. -/
def getNumericValueForFunc (buf : String) : Int :=
  match parseIntJS (trimLeftSpace buf) with
  | none => -1
  | some n => if n < 0 then -1 else n

/-- `word(n,text)` from src-ts/core/func.ts; `Except.error` models
`ev.error` (which throws). -/
def wordFunc (nStr text : String) : Except String String :=
  let n := getNumericValueForFunc nStr
  if n < 0 then
    .error ("*** non-numeric first argument to 'word' function: '" ++ nStr ++ "'.")
  else if n = 0 then
    .error "*** first argument to 'word' function must be greater than 0."
  else
    let words := splitSpace text
    if n ≤ (words.length : Int) then .ok (words.getD (n.toNat - 1) "")
    else .ok ""

/-- Modelled from the spec: the Evaluator's `lookupVar` (evaluator.ts is
absent from the sources) returns the stored `Var` binding, or a falsy
result when the name is unbound. -/
def lookupVar (env : Vars) (name : String) : Option Var :=
  (List.find? (fun p => p.1 == name) env).map (·.2)

/-- JavaScript default stringification of a `Var` instance: none of the
`Var` classes overrides `toString`, so `variable.toString()` produces
`Object.prototype.toString`'s result. -/
def jsToString (_variable : Var) : String :=
  "[object Object]"

/-- `valueFunc` from src-ts/core/func.ts:
`variable ? variable.toString() : ''` — note `.toString()`, not the
`Var.string()` method. -/
def valueFunc (env : Vars) (name : String) : String :=
  match lookupVar env name with
  | some var_ => jsToString var_
  | none => ""

/-! ### Recipe prefixes and the command loop
(src-ts/var.ts `parseCommandPrefixes`, `CommandEvaluator.eval`;
src-ts/exec.ts `Executor.execNode`) -/

/-- JavaScript `trimStart` (the ASCII whitespace subset relevant to
makefile recipe lines). -/
def jsTrimStart (cs : List Char) : List Char :=
  cs.dropWhile isWS

/-- JavaScript `trim` on a string. -/
def jsTrim (s : String) : String :=
  String.mk (((s.toList.dropWhile isWS).reverse.dropWhile isWS).reverse)

/-- Helper for JavaScript `split('\n')`. -/
def splitLinesAux : List Char → List Char → List String
  | [], acc => [String.mk acc.reverse]
  | c :: cs, acc =>
    if c = '\x0a' then String.mk acc.reverse :: splitLinesAux cs []
    else splitLinesAux cs (c :: acc)

/-- JavaScript `cmdValue.split('\n')`. -/
def splitNewlines (s : String) : List String :=
  splitLinesAux s.toList []

/-- Result of `parseCommandPrefixes`. -/
structure ParsedCommand where
  cmd : String
  echo : Bool
  ignore_error : Bool
deriving Repr, DecidableEq

/-- The `while` loop of `parseCommandPrefixes`: consume `@`, `-` and `+`
markers until another character is reached.  The source re-trims
(`trimStart`) after each consumed marker; on input whose head is not
whitespace (`parseCommandPrefixes` trims before entering the loop) that
is the same as consuming whitespace characters inline during the scan,
which keeps the recursion structural. -/
def parsePrefixLoop : List Char → Bool → Bool → List Char × Bool × Bool
  | [], echo, ignore => ([], echo, ignore)
  | c :: rest, echo, ignore =>
    if c = '@' then parsePrefixLoop rest false ignore
    else if c = '-' then parsePrefixLoop rest echo true
    else if c = '+' then parsePrefixLoop rest echo ignore
    else if isWS c then parsePrefixLoop rest echo ignore
    else (c :: rest, echo, ignore)

/-- `parseCommandPrefixes(s)` from src-ts/var.ts: left-trim, then strip
`@` (no echo), `-` (ignore errors) and `+` (recursion marker) prefixes. -/
def parseCommandPrefixes (s : String) : ParsedCommand :=
  let r := parsePrefixLoop (jsTrimStart s.toList) true false
  ⟨String.mk r.1, r.2.1, r.2.2⟩

/-- `Command` from src-ts/var.ts. -/
structure Command where
  output : String
  cmd : String
  echo : Bool
  ignore_error : Bool
deriving Repr, DecidableEq

/-- `CommandEvaluator.eval(node)` from src-ts/var.ts: split each command
value on newlines, drop blank lines, parse the recipe prefixes, drop
commands that became empty, and package the rest. -/
def ceEval (output : String) (cmds : List String) : List Command :=
  cmds.flatMap (fun cmdValue =>
    (splitNewlines cmdValue).filterMap (fun line =>
      if jsTrim line = "" then none
      else
        let p := parseCommandPrefixes line
        if p.cmd = "" then none
        else some ⟨output, p.cmd, p.echo, p.ignore_error⟩))

/-- The command loop of `Executor.execNode` (src-ts/exec.ts lines
104-133), with the shell modelled as an oracle `run` from command text to
exit status.  A non-zero exit with `ignore_error` appends the
`console.error` line `[output] Error N (ignored)` to the log and
continues; without it the loop throws `*** [output] Error N`.  The first
component counts executed commands (`num_commands_`); `avoid_io` is false
during normal execution. -/
def execCommands (run : String → Nat) : List Command → Except String (Nat × List String)
  | [] => .ok (0, [])
  | c :: rest =>
    let code := run c.cmd
    if code ≠ 0 then
      if c.ignore_error then
        match execCommands run rest with
        | .ok (n, logs) =>
          .ok (n + 1, ("[" ++ c.output ++ "] Error " ++ toString code ++ " (ignored)") :: logs)
        | .error e => .error e
      else .error ("*** [" ++ c.output ++ "] Error " ++ toString code)
    else
      match execCommands run rest with
      | .ok (n, logs) => .ok (n + 1, logs)
      | .error e => .error e

/-! ### Rules and the dependency builder (src-ts/dep.ts)

`Rule`'s `loc`, `cmd_loc` and `cmd_lineno` fields are diagnostic metadata
and are not modelled.  Command values in a `Rule` are the evaluated
command strings (that is what `RuleStmt.eval`/`CommandStmt.eval` push). -/

structure Rule where
  outputs : List String
  inputs : List String
  order_only_inputs : List String
  output_patterns : List String
  cmds : List String
  is_double_colon : Bool
  is_suffix_rule : Bool
deriving Repr, DecidableEq

/-- `isSpecialTarget` from src-ts/dep.ts: at least two characters, starts
with `.` and the second character is not `.`. -/
def isSpecialTarget (output : String) : Bool :=
  match output.toList with
  | c0 :: c1 :: _ => c0 = '.' && !(c1 = '.')
  | _ => false

/-- `isSuffixRule(output)` from src-ts/dep.ts: a special target whose rest
contains exactly one further dot. -/
def isSuffixRule (output : String) : Bool :=
  if output.length = 0 || !isSpecialTarget output then false
  else
    let rest := output.toList.drop 1
    match rest.findIdx? (· = '.') with
    | none => false
    | some dotIndex => !(rest.drop (dotIndex + 1)).contains '.'

/-- JavaScript `lastIndexOf` on a char list (`-1` for absent). -/
def lastIndexOf (cs : List Char) (c : Char) : Int :=
  match cs.reverse.findIdx? (· = c) with
  | none => -1
  | some i => (cs.length : Int) - 1 - i

/-- `stripExt` (the local helper in src-ts/dep.ts): drop the extension when
the last dot comes after the last slash or backslash. -/
def stripExt (path : String) : String :=
  let lastDot := lastIndexOf path.toList '.'
  let lastSlash := max (lastIndexOf path.toList '/') (lastIndexOf path.toList '\\')
  if lastDot > lastSlash then String.mk (path.toList.take lastDot.toNat) else path

/-- `replaceSuffix(s, newsuf)` from src-ts/dep.ts. -/
def replaceSuffix (s newsuf : String) : String :=
  stripExt s ++ "." ++ newsuf

/-- `applyOutputPattern(rule, output, inputs, outInputs)` from
src-ts/dep.ts, returning the strings it appends to `outInputs`;
`Except.error` models the `Multiple output patterns` throw. -/
def applyOutputPattern (rule : Rule) (output : String) (inputs : List String) :
    Except String (List String) :=
  if inputs.isEmpty then .ok []
  else if rule.is_suffix_rule then
    .ok (inputs.map (fun input => replaceSuffix output input))
  else if rule.output_patterns.isEmpty then .ok inputs
  else if rule.output_patterns.length ≠ 1 then
    .error "Multiple output patterns not supported"
  else
    let pat := Pattern.make (rule.output_patterns.headD "")
    .ok (inputs.map (fun input => pat.appendSubst output input))

/-- `RuleMerger` from src-ts/dep.ts.  Rules are tagged with their insertion
index so that the source's object-identity test
`rule === this.primary_rule` can be modelled as index equality.
`implicit_outputs` and the `parent` link are omitted: `populateRules`'s
implicit-output processing is an unimplemented TODO in the source, so they
are always empty/null on every path taken here.  `validations` is kept
(it is read by `fillDepNode`) and is likewise never populated. -/
structure RuleMerger where
  rules : List (Nat × Rule)
  primary_rule : Option (Nat × Rule)
  validations : List String
  is_double_colon : Bool
deriving Repr, DecidableEq

/-- A freshly constructed `RuleMerger`. -/
def RuleMerger.init : RuleMerger :=
  ⟨[], none, [], false⟩

/-- `RuleMerger.addRule(output, rule)`: the first rule fixes the
double-colon flag, a later rule with the other flag is fatal; a rule with
commands becomes (or overrides) the primary rule unless it is a suffix
rule or double-colon. -/
def RuleMerger.addRule (m : RuleMerger) (output : String) (rule : Rule) :
    Except String RuleMerger :=
  if !m.rules.isEmpty && !(m.is_double_colon = rule.is_double_colon) then
    .error ("*** target file `" ++ output ++ "' has both : and :: entries.")
  else
    let m1 :=
      if m.rules.isEmpty then { m with is_double_colon := rule.is_double_colon }
      else m
    let m2 :=
      if m1.primary_rule.isSome && !rule.cmds.isEmpty && !isSuffixRule output &&
         !rule.is_double_colon then
        { m1 with primary_rule := some (m1.rules.length, rule) }
      else m1
    let m3 :=
      if m2.primary_rule.isNone && !rule.cmds.isEmpty then
        { m2 with primary_rule := some (m2.rules.length, rule) }
      else m2
    .ok { m3 with rules := m3.rules ++ [(m3.rules.length, rule)] }

/-- `DepNode` from src-ts/dep.ts, restricted to the fields `buildPlan`
reads or writes.  Dependency edges hold the index of the child node in the
builder's allocation store, modelling JavaScript object references
(`rule_vars` and the `depfile/ninja_pool/tags` vars are populated but
never consulted during plan building and are omitted). -/
structure DNode where
  output : String
  has_rule : Bool
  is_default_target : Bool
  is_phony : Bool
  is_restat : Bool
  cmds : List String
  actual_inputs : List String
  actual_order_only_inputs : List String
  actual_validations : List String
  deps : List (String × Nat)
  order_onlys : List (String × Nat)
  validations : List (String × Nat)
  output_pattern : Option String
deriving Repr, DecidableEq

/-- `RuleMerger.fillDepNodeFromRule(output, rule, node)`. -/
def fillDepNodeFromRule (isDC : Bool) (output : String) (rule : Rule)
    (node : DNode) : Except String DNode := do
  let node := if isDC then { node with cmds := node.cmds ++ rule.cmds } else node
  let ins ← applyOutputPattern rule output rule.inputs
  let node := { node with actual_inputs := node.actual_inputs ++ ins }
  let oo ← applyOutputPattern rule output rule.order_only_inputs
  let node :=
    { node with actual_order_only_inputs := node.actual_order_only_inputs ++ oo }
  if rule.output_patterns.length ≥ 1 then
    if rule.output_patterns.length ≠ 1 then
      .error "Multiple output patterns not supported"
    else pure { node with output_pattern := some (rule.output_patterns.headD "") }
  else pure node

/-- The non-primary `for` loop of `fillDepNode`: every stored rule except
the primary one (the skip test `rule === this.primary_rule` compares
insertion indices) contributes inputs. -/
def fillDepNodeLoop (m : RuleMerger) (output : String) (node : DNode) :
    Except String DNode :=
  m.rules.foldlM (fun nd idRule =>
    if (m.primary_rule.map (·.1)) = some idRule.1 then pure nd
    else fillDepNodeFromRule m.is_double_colon output idRule.2 nd) node

/-- `RuleMerger.fillDepNode(output, patternRule, node)`; `buildPlan` always
passes `patternRule = null`, so only the primary-rule branch, the
non-primary loop and the validation append remain (`fillDepNodeLoc`
touches only location metadata). -/
def RuleMerger.fillDepNode (m : RuleMerger) (output : String) (node : DNode) :
    Except String DNode := do
  let node ←
    match m.primary_rule with
    | some primary => do
      let node ← fillDepNodeFromRule m.is_double_colon output primary.2 node
      pure { node with cmds := primary.2.cmds }
    | none => pure node
  let node ← fillDepNodeLoop m output node
  pure { node with actual_validations := node.actual_validations ++ m.validations }

/-- Association-list read modelling `Map.get`. -/
def alistGet? {α : Type} (l : List (String × α)) (k : String) : Option α :=
  (l.find? (fun p => p.1 == k)).map (·.2)

/-- Association-list write modelling `Map.set`. -/
def alistSet {α : Type} (l : List (String × α)) (k : String) (v : α) :
    List (String × α) :=
  if l.any (fun p => p.1 == k) then
    l.map (fun p => if p.1 == k then (k, v) else p)
  else l ++ [(k, v)]

/-- `DepBuilder`'s state after construction, restricted to what `buildPlan`
reads: the merger map, the first non-special explicit target, and the
`.PHONY`/`.KATI_RESTAT` sets.  The suffix-rule table and the
implicit-rule trie are built by `populateRules` but never consulted by
`buildPlan` (its rule-selection beyond the explicit merger is an
unimplemented stub), and the target-scoped variable map feeds only the
omitted `rule_vars` scope, which dep building never reads. -/
structure DepBuilder where
  rules_ : List (String × RuleMerger)
  first_rule_ : Option String
  phony_ : List String
  restat_ : List String
deriving Repr, DecidableEq

/-- `DepBuilder.populateExplicitRule(rule)`. -/
def populateExplicitRule (b : DepBuilder) (rule : Rule) : Except String DepBuilder :=
  rule.outputs.foldlM (fun b output => do
    let b :=
      if b.first_rule_.isNone && !isSpecialTarget output then
        { b with first_rule_ := some output }
      else b
    let merger := (alistGet? b.rules_ output).getD RuleMerger.init
    let merger ← merger.addRule output rule
    pure { b with rules_ := alistSet b.rules_ output merger }) b

/-- `DepBuilder.populateRules(rules)`: rules without outputs go to the
implicit-rule trie (never consulted by `buildPlan`); the rest are merged
per output symbol.  The trailing implicit-output/validation processing is
a TODO stub in the source. -/
def populateRules (rules : List Rule) : Except String DepBuilder :=
  rules.foldlM (fun b rule =>
    if rule.outputs.isEmpty then pure b
    else populateExplicitRule b rule)
    ⟨[], none, [], []⟩

/-- `DepBuilder.getRuleInputs(sym)`. -/
def getRuleInputs (b : DepBuilder) (sym : String) : Option (List String) :=
  match alistGet? b.rules_ sym with
  | none => none
  | some m =>
    if m.rules.isEmpty then none
    else some (m.rules.flatMap (fun r => r.2.inputs))

/-- `DepBuilder.handleSpecialTargets()`: record the `.PHONY` and
`.KATI_RESTAT` input sets (`.SUFFIXES` only clears the unused suffix-rule
table). -/
def handleSpecialTargets (b : DepBuilder) : DepBuilder :=
  let b :=
    match getRuleInputs b ".PHONY" with
    | some ts => { b with phony_ := ts }
    | none => b
  match getRuleInputs b ".KATI_RESTAT" with
  | some ts => { b with restat_ := ts }
  | none => b

/-- The `DepBuilder` constructor. -/
def makeDepBuilder (rules : List Rule) : Except String DepBuilder :=
  (populateRules rules).map handleSpecialTargets

/-- Result of a dependency-plan computation: `oof` is fuel exhaustion (the
source has no fuel: reaching `oof` for every fuel would mean the source
recurses forever), `fail` models a thrown error. -/
inductive BRes (α : Type) where
  | oof
  | fail (msg : String)
  | ok (a : α)
deriving Repr

/-- Builder state: the node allocation store and the `done_` memo map
(symbol to store index). -/
structure BState where
  store : List DNode
  done : List (String × Nat)
deriving Repr

/-- One of `buildPlan`'s edge-building `for` loops: build each input's
node in order (through `recur`, the plan builder one fuel level down) and
collect `(input, child)` edges. -/
def buildEdgesStep (recur : BState → String → String → BRes (Nat × BState)) :
    BState → List String → String → BRes (List (String × Nat) × BState)
  | st, [], _ => .ok ([], st)
  | st, input :: rest, out =>
    match recur st input out with
    | .oof => .oof
    | .fail e => .fail e
    | .ok (cid, st') =>
      match buildEdgesStep recur st' rest out with
      | .oof => .oof
      | .fail e => .fail e
      | .ok (edges, st'') => .ok ((input, cid) :: edges, st'')

/-- The fresh `DepNode` allocated by `buildPlan` before any filling. -/
def prelimNode (b : DepBuilder) (output : String) : DNode :=
  { output := output
    has_rule := false
    is_default_target := false
    is_phony := b.phony_.contains output
    is_restat := b.restat_.contains output
    cmds := []
    actual_inputs := []
    actual_order_only_inputs := []
    actual_validations := []
    deps := []
    order_onlys := []
    validations := []
    output_pattern := none }

/-- Look up the target's `RuleMerger`, if any, and fill the node from it. -/
def fillResult (b : DepBuilder) (output : String) (node : DNode) :
    Except String DNode :=
  match alistGet? b.rules_ output with
  | some merger => merger.fillDepNode output node
  | none => .ok node

/-- The body of `DepBuilder.buildPlan` past the memo check: allocate the
node, memoise it *before* recursing, fill it from the merger, recursively
build dependency, order-only and validation edges (through `recur`), then
finalise `has_rule` and `is_default_target`.  (The target-variable scope
push only sets variables that dep building never reads.) -/
def buildPlanFresh (b : DepBuilder)
    (recur : BState → String → String → BRes (Nat × BState))
    (st : BState) (output : String) : BRes (Nat × BState) :=
  let node := prelimNode b output
  let id := st.store.length
  let st1 : BState := ⟨st.store ++ [node], (output, id) :: st.done⟩
  match fillResult b output node with
  | .error e => .fail e
  | .ok node =>
    match buildEdgesStep recur st1 node.actual_inputs output with
    | .oof => .oof
    | .fail e => .fail e
    | .ok (deps, st2) =>
      match buildEdgesStep recur st2 node.actual_order_only_inputs output with
      | .oof => .oof
      | .fail e => .fail e
      | .ok (orderOnlys, st3) =>
        match buildEdgesStep recur st3 node.actual_validations output with
        | .oof => .oof
        | .fail e => .fail e
        | .ok (validations, st4) =>
          let finalNode :=
            { node with
              deps := deps
              order_onlys := orderOnlys
              validations := validations
              has_rule := true
              is_default_target := decide (b.first_rule_ = some output) }
          .ok (id, ⟨st4.store.set id finalNode, st4.done⟩)

/-- `DepBuilder.buildPlan(ev, output, neededBy)` from src-ts/dep.ts:
return the memoised node if present; otherwise run `buildPlanFresh`, its
recursive builds one fuel level down (`neededBy` is unused by the source
body). -/
def buildPlan (b : DepBuilder) : Nat → BState → String → String →
    BRes (Nat × BState)
  | fuel, st, output, _neededBy =>
    match alistGet? st.done output with
    | some id => .ok (id, st)
    | none =>
      match fuel with
      | 0 => .oof
      | f + 1 => buildPlanFresh b (buildPlan b f) st output

/-- `DepBuilder.build(ev, targets)` plus the `makeDep` wiring: construct
the builder, fail with `*** No targets.` when no explicit rule exists,
default the target list to the first rule, and build a plan per target. -/
def build (rules : List Rule) (targets : List String) (fuel : Nat) :
    BRes (List (String × Nat) × BState) :=
  match makeDepBuilder rules with
  | .error e => .fail e
  | .ok b =>
    match b.first_rule_ with
    | none => .fail "*** No targets."
    | some first =>
      let targetList := if targets.isEmpty then [first] else targets
      buildEdgesStep (buildPlan b fuel) ⟨[], []⟩ targetList ""

/-- Adding a sequence of rules for one target to a fresh `RuleMerger`, as
`populateExplicitRule` does across statements. -/
def addRules (output : String) (rs : List Rule) : Except String RuleMerger :=
  rs.foldlM (fun m r => m.addRule output r) RuleMerger.init

/-- The dependency inputs a rule contributes for one of its outputs
(empty when `applyOutputPattern` would throw). -/
def ruleChildren (rule : Rule) (output : String) : List String :=
  ((applyOutputPattern rule output rule.inputs).toOption.getD []) ++
  ((applyOutputPattern rule output rule.order_only_inputs).toOption.getD [])

/-- Finite universe of symbols a dependency build can ever visit: the
requested targets, every explicit output, and every input derived from a
rule for one of its outputs. -/
def universeU (rules : List Rule) (targets : List String) : List String :=
  targets ++ rules.flatMap (fun r => r.outputs) ++
  rules.flatMap (fun r => r.outputs.flatMap (fun o => ruleChildren r o))

/-- Number of universe symbols not yet memoised — the termination measure
of `buildPlan`. -/
def missingCount (u : List String) (done : List (String × Nat)) : Nat :=
  (u.dedup.filter (fun s => (alistGet? done s).isNone)).length

/-- All dependency symbols of a node lie in the universe. -/
def nodeBound (u : List String) (nd : DNode) : Prop :=
  (∀ x ∈ nd.actual_inputs, x ∈ u) ∧
  (∀ x ∈ nd.actual_order_only_inputs, x ∈ u) ∧
  (∀ x ∈ nd.actual_validations, x ∈ u)

/-- Invariant of a merger stored for symbol `s`: every stored rule (and
the primary rule) is one of the program's rules with `s` among its
outputs, and no validations are recorded (the source's validation
population is an unimplemented stub). -/
def MergerOK (rules : List Rule) (s : String) (m : RuleMerger) : Prop :=
  (∀ p ∈ m.rules, p.2 ∈ rules ∧ s ∈ p.2.outputs) ∧
  (∀ p, m.primary_rule = some p → p.2 ∈ rules ∧ s ∈ p.2.outputs) ∧
  m.validations = []

/-- Invariant of the populated builder: every stored merger satisfies
`MergerOK` and the default target is an output of some rule. -/
def BuilderOK (rules : List Rule) (b : DepBuilder) : Prop :=
  (∀ s m, alistGet? b.rules_ s = some m → MergerOK rules s m) ∧
  (∀ s, b.first_rule_ = some s → ∃ r ∈ rules, s ∈ r.outputs)

/-! ## Theorems -/

/-- C10: `subst` called with an empty from-string returns the text with
the to-string appended at the end (`text + to`); in particular it neither
returns the text unchanged (once `to` is non-empty) nor replaces anything
inside the text. -/
theorem c10_subst_empty_from (repl text : String) :
    substFunc "" repl text = text ++ repl := by
  simp [substFunc]

/-- C1: after `A := foo`, `B = $(A) bar`, `A := baz` in an empty
environment, `=` has stored its right-hand side unevaluated as a
recursive variable, and expanding `$(B)` re-expands `$(A)` at read time,
yielding exactly `baz bar`. -/
theorem c1_recursive_var_reexpands_at_use :
    (do
      let e1 ← evalAssign 10 [] .colonEq "A" (.literal "foo") "foo"
      let e2 ← evalAssign 10 e1 .eq "B"
        (.list [.symRef "A", .literal " bar"]) "$(A) bar"
      let e3 ← evalAssign 10 e2 .colonEq "A" (.literal "baz") "baz"
      let result ← evalV 10 e3 (.symRef "B")
      pure (result, Vars.lookup e3 "B")) =
    some ("baz bar",
      Var.recursive (.list [.symRef "A", .literal " bar"]) "$(A) bar") := by
  rfl

/-- C2: the code bug behind the `$(value V)` claim.  For a recursive
variable `V` stored with original text `$(X) bar`, `valueFunc` returns
the JavaScript default stringification `[object Object]` (the source
calls `variable.toString()`, not the `Var.string()` accessor that holds
the text), so `$(value V)` is not the stored text, although
`RecursiveVar.string()` does return exactly that text. -/
theorem c2_value_func_failing_input :
    valueFunc [("V", Var.recursive (.symRef "X") "$(X) bar")] "V"
      = "[object Object]"
    ∧ Var.string (Var.recursive (.symRef "X") "$(X) bar") = "$(X) bar"
    ∧ ("[object Object]" : String) ≠ "$(X) bar" := by
  refine ⟨rfl, rfl, ?_⟩
  decide

/-- C3 counterexample: after `X :=` (so X is bound to the empty string),
the assignment `X ?= foo` leaves the binding as the empty string — it
does not store `foo`, contradicting the claim that `?=` assigns when the
current value is empty. -/
theorem c3_counterexample :
    evalAssign 10 [] .colonEq "X" (.literal "") "" = some [("X", Var.simple "")]
    ∧ evalAssign 10 [("X", Var.simple "")] .questionEq "X" (.literal "foo") "foo"
        = some [("X", Var.simple "")]
    ∧ Vars.lookup [("X", Var.simple "")] "X" = Var.simple ""
    ∧ Var.simple "" ≠ Var.simple "foo" := by
  refine ⟨rfl, rfl, rfl, ?_⟩
  intro h
  injection h with h'
  exact absurd h' (by decide)

/-- C3 (amended): `X ?= rhs` stores the evaluated rhs as a simple variable
only when X is currently undefined; whenever X is already defined — even
when its value is the empty string — the environment is left completely
unchanged. -/
theorem c3_question_eq_only_when_undefined (fuel : Nat) (env : Vars)
    (name : String) (rhs : Value) (orig : String) :
    ((Vars.lookup env name).isDefined = true →
      evalAssign fuel env .questionEq name rhs orig = some env) ∧
    ((Vars.lookup env name).isDefined = false →
      evalAssign fuel env .questionEq name rhs orig =
        (evalV fuel env rhs).map fun value =>
          Vars.setVar env name (.simple value)) := by
  constructor <;> intro h <;> simp [evalAssign, h]

/-- C3 witness: the amended theorem applied to a defined (non-empty) and
an undefined variable. -/
theorem c3_question_eq_witness :
    evalAssign 5 [("X", Var.simple "a")] .questionEq "X" (.literal "foo") "foo"
      = some [("X", Var.simple "a")]
    ∧ evalAssign 5 [] .questionEq "Y" (.literal "foo") "foo"
      = some [("Y", Var.simple "foo")] := by
  constructor
  · exact (c3_question_eq_only_when_undefined 5 [("X", Var.simple "a")] "X"
      (.literal "foo") "foo").1 rfl
  · have h := (c3_question_eq_only_when_undefined 5 [] "Y"
      (.literal "foo") "foo").2 rfl
    rw [h]
    rfl

/-- C9: looking up any unbound name returns the one `UndefinedVar`
sentinel (the same value for every unbound name), and expanding a
`$(NAME)` reference to it evaluates, without error, to the empty
string — at any fuel, since no re-expansion is needed. -/
theorem c9_undefined_lookup_empty (env : Vars) (name : String) (fuel : Nat)
    (h : List.find? (fun p => p.1 == name) env = none) :
    Vars.lookup env name = Var.undef
    ∧ evalV fuel env (.symRef name) = some "" := by
  have hl : Vars.lookup env name = Var.undef := by
    simp [Vars.lookup, h]
  refine ⟨hl, ?_⟩
  cases fuel <;> simp [evalV, evalStep, hl, varEvalStep]

/-- C9 witness: lookup and expansion of an unbound name in a non-empty
environment. -/
theorem c9_undefined_lookup_empty_witness :
    Vars.lookup [("A", Var.simple "x")] "FOO" = Var.undef
    ∧ evalV 0 [("A", Var.simple "x")] (.symRef "FOO") = some "" :=
  c9_undefined_lookup_empty [("A", Var.simple "x")] "FOO" 0 (by rfl)

/-- Filtering by a predicate and by its negation splits a list's element
counts exactly. -/
theorem count_filter_not_aux {α : Type} [DecidableEq α] (p : α → Bool)
    (l : List α) (a : α) :
    (l.filter p).count a + (l.filter (fun x => !p x)).count a = l.count a := by
  induction l with
  | nil => simp
  | cons x xs ih =>
    by_cases h : p x <;>
      simp [List.filter_cons, h, List.count_cons, ← ih] <;> omega

/-- C6: `filter(p,T)` and `filter-out(p,T)` partition the words of `T`:
both results are the word list of `T` filtered by complementary
predicates, every word of `T` lands in exactly one side (counted with
multiplicity), and each side preserves the relative order of `T`'s words
(it is a sublist). -/
theorem c6_filter_partition (p T : String) :
    filterFunc p T = joinStrings (filterWords p T) " "
    ∧ filterOutFunc p T = joinStrings (filterOutWords p T) " "
    ∧ (∀ w, (filterWords p T).count w + (filterOutWords p T).count w
        = (splitSpace T).count w)
    ∧ List.Sublist (filterWords p T) (splitSpace T)
    ∧ List.Sublist (filterOutWords p T) (splitSpace T) := by
  refine ⟨rfl, rfl, ?_, ?_, ?_⟩
  · intro w
    exact count_filter_not_aux _ (splitSpace T) w
  · exact List.filter_sublist _
  · exact List.filter_sublist _

/-- `String.mk`'s character list. -/
theorem toList_mk (l : List Char) : (String.mk l).toList = l := rfl

/-- A decimal digit is not in the word-splitting whitespace set. -/
theorem isDigit_not_isWS {c : Char} (h : c.isDigit = true) : isWS c = false := by
  simp only [isWS, Bool.or_eq_false_iff, decide_eq_false_iff_not]
  repeat' apply And.intro
  all_goals
    rintro rfl
    exact absurd h (by decide)

/-- A decimal digit is not a space or tab. -/
theorem isDigit_not_space_tab {c : Char} (h : c.isDigit = true) :
    (decide (c = ' ') || decide (c = '\x09')) = false := by
  simp only [Bool.or_eq_false_iff, decide_eq_false_iff_not]
  constructor
  all_goals
    rintro rfl
    exact absurd h (by decide)

/-- A decimal digit is not a sign character. -/
theorem isDigit_not_sign {c : Char} (h : c.isDigit = true) :
    c ≠ '+' ∧ c ≠ '-' := by
  constructor
  all_goals
    rintro rfl
    exact absurd h (by decide)

/-- `takeWhile` over an all-digit block followed by a non-digit boundary
returns exactly the block. -/
theorem takeWhile_digits_append (ds tail : List Char)
    (hdig : ∀ c ∈ ds, c.isDigit = true)
    (htail : ∀ c, tail.head? = some c → c.isDigit = false) :
    (ds ++ tail).takeWhile Char.isDigit = ds := by
  induction ds with
  | nil =>
    cases tail with
    | nil => rfl
    | cons c rest => simp [List.takeWhile_cons, htail c rfl]
  | cons d ds' ih =>
    simp only [List.cons_append, List.takeWhile_cons, hdig d (by simp), if_true]
    rw [ih (fun c hc => hdig c (by simp [hc]))]

/-- Parsing an all-digit block with an arbitrary non-digit tail, with or
without a leading `+`, yields the block's decimal value (never an
error). -/
theorem getNumeric_digits (ds tail : List Char) (hds : ds ≠ [])
    (hdig : ∀ c ∈ ds, c.isDigit = true)
    (htail : ∀ c, tail.head? = some c → c.isDigit = false) :
    getNumericValueForFunc (String.mk (ds ++ tail)) = (digitsVal ds : Int)
    ∧ getNumericValueForFunc (String.mk ('+' :: ds)) = (digitsVal ds : Int) := by
  obtain ⟨d, ds', rfl⟩ : ∃ d ds', ds = d :: ds' := by
    cases ds with
    | nil => exact absurd rfl hds
    | cons d ds' => exact ⟨d, ds', rfl⟩
  have hd : d.isDigit = true := hdig d (by simp)
  have hne := isDigit_not_sign hd
  have hp : ((some d == some '+') : Bool) = false := by simp [hne.1]
  have hm : ((some d == some '-') : Bool) = false := by simp [hne.2]
  constructor
  · have h1 : trimLeftSpace (String.mk ((d :: ds') ++ tail)) =
        String.mk (d :: (ds' ++ tail)) := by
      simp only [trimLeftSpace, toList_mk, List.cons_append, List.dropWhile_cons,
        isDigit_not_space_tab hd, Bool.false_eq_true, if_false]
    have h2 : parseIntJS (String.mk (d :: (ds' ++ tail))) =
        some (digitsVal (d :: ds') : Int) := by
      simp only [parseIntJS, toList_mk, List.dropWhile_cons, isDigit_not_isWS hd,
        Bool.false_eq_true, if_false, List.head?_cons, hp, hm, Bool.or_false]
      have ht : (d :: (ds' ++ tail)).takeWhile Char.isDigit = d :: ds' := by
        have h3 := takeWhile_digits_append (d :: ds') tail hdig htail
        simpa using h3
      rw [ht]
      simp
    simp only [getNumericValueForFunc, h1, h2]
    rw [if_neg (Int.not_lt.mpr (Int.natCast_nonneg _))]
  · have h1 : trimLeftSpace (String.mk ('+' :: d :: ds')) =
        String.mk ('+' :: d :: ds') := by
      unfold trimLeftSpace
      rw [toList_mk, List.dropWhile_cons, if_neg (by decide)]
    have h2 : parseIntJS (String.mk ('+' :: d :: ds')) =
        some (digitsVal (d :: ds') : Int) := by
      simp only [parseIntJS, toList_mk, List.dropWhile_cons,
        show isWS '+' = false by decide, Bool.false_eq_true, if_false,
        List.head?_cons, show ((some '+' == some '+') : Bool) = true by decide,
        show ((some '+' == some '-') : Bool) = false by decide,
        Bool.true_or, if_true, List.tail_cons]
      have ht : (d :: ds').takeWhile Char.isDigit = d :: ds' := by
        have h3 := takeWhile_digits_append (d :: ds') [] hdig (by simp)
        simpa using h3
      rw [ht]
      simp
    simp only [getNumericValueForFunc, h1, h2]
    rw [if_neg (Int.not_lt.mpr (Int.natCast_nonneg _))]

/-- `wordFunc` depends on its first argument only through
`getNumericValueForFunc` once that value is non-negative. -/
theorem wordFunc_congr (a b text : String)
    (h : getNumericValueForFunc a = getNumericValueForFunc b)
    (h0 : 0 ≤ getNumericValueForFunc a) :
    wordFunc a text = wordFunc b text := by
  have hno : ¬(getNumericValueForFunc a < 0) := Int.not_lt.mpr h0
  simp only [wordFunc, ← h]
  rw [if_neg hno, if_neg hno]

/-- C4 counterexample: the claim says a non-digit tail and a leading `+`
in the numeric argument of `word` are errors, but `word(2x, a b c)` and
`word(+2, a b c)` both succeed and return `b`. -/
theorem c4_counterexample :
    wordFunc "2x" "a b c" = .ok "b" ∧ wordFunc "+2" "a b c" = .ok "b" := by
  exact ⟨rfl, rfl⟩

/-- C4 (amended): the numeric first argument of `word` is parsed by
stripping leading whitespace and reading a decimal number, where a
non-digit tail is ignored rather than an error and a leading `+` is
accepted; an argument with no leading number at all (or a negative one)
is a non-numeric error; `word(0, text)` errors for every text; and for
`n` greater than the number of words, `word(n, text)` returns the empty
string. -/
theorem c4_word_numeric_parsing (ds tail : List Char) (text : String)
    (hds : ds ≠ []) (hdig : ∀ c ∈ ds, c.isDigit = true)
    (htail : ∀ c, tail.head? = some c → c.isDigit = false) :
    wordFunc (String.mk (ds ++ tail)) text = wordFunc (String.mk ds) text
    ∧ wordFunc (String.mk ('+' :: ds)) text = wordFunc (String.mk ds) text
    ∧ (∀ t2 : String, wordFunc "0" t2 =
        .error "*** first argument to 'word' function must be greater than 0.")
    ∧ (∀ (nStr t2 : String), getNumericValueForFunc nStr = -1 →
        wordFunc nStr t2 = .error
          ("*** non-numeric first argument to 'word' function: '" ++ nStr ++ "'."))
    ∧ (∀ (nStr t2 : String) (n : Nat), getNumericValueForFunc nStr = (n : Int) →
        (splitSpace t2).length < n → wordFunc nStr t2 = .ok "") := by
  have hfull := getNumeric_digits ds tail hds hdig htail
  have hself := getNumeric_digits ds [] hds hdig (by simp)
  have hself1 : getNumericValueForFunc (String.mk ds) = (digitsVal ds : Int) := by
    simpa using hself.1
  refine ⟨?_, ?_, ?_, ?_, ?_⟩
  · exact wordFunc_congr _ _ text (by rw [hfull.1, hself1])
      (by rw [hfull.1]; exact Int.natCast_nonneg _)
  · exact wordFunc_congr _ _ text (by rw [hfull.2, hself1])
      (by rw [hfull.2]; exact Int.natCast_nonneg _)
  · intro t2
    rfl
  · intro nStr t2 h
    simp only [wordFunc, h]
    rfl
  · intro nStr t2 n h hlt
    simp only [wordFunc, h]
    rw [if_neg (by exact Int.not_lt.mpr (Int.natCast_nonneg _))]
    rw [if_neg (by omega)]
    rw [if_neg (by omega)]

/-- C4 witness: the amended theorem at `ds = "2"`, `tail = "x"`,
text `a b c`. -/
theorem c4_word_numeric_parsing_witness :
    wordFunc (String.mk (['2'] ++ ['x'])) "a b c" = wordFunc (String.mk ['2']) "a b c"
    ∧ wordFunc (String.mk ('+' :: ['2'])) "a b c" = wordFunc (String.mk ['2']) "a b c"
    ∧ (∀ t2 : String, wordFunc "0" t2 =
        .error "*** first argument to 'word' function must be greater than 0.")
    ∧ (∀ (nStr t2 : String), getNumericValueForFunc nStr = -1 →
        wordFunc nStr t2 = .error
          ("*** non-numeric first argument to 'word' function: '" ++ nStr ++ "'."))
    ∧ (∀ (nStr t2 : String) (n : Nat), getNumericValueForFunc nStr = (n : Int) →
        (splitSpace t2).length < n → wordFunc nStr t2 = .ok "") :=
  c4_word_numeric_parsing ['2'] ['x'] "a b c" (by decide) (by decide)
    (by intro c hc; injection hc with h; rw [← h]; decide)

/-- `addRule` fails exactly with the mixing message when the merger is
non-empty and the new rule's double-colon flag disagrees. -/
theorem addRule_mismatch (m : RuleMerger) (out : String) (r : Rule)
    (hne : m.rules ≠ []) (hdiff : m.is_double_colon ≠ r.is_double_colon) :
    m.addRule out r =
      .error ("*** target file `" ++ out ++ "' has both : and :: entries.") := by
  unfold RuleMerger.addRule
  rw [if_pos]
  simp [hne, hdiff]

/-- `addRule` succeeds whenever the merger is empty or the flags agree;
the resulting merger keeps (or adopts) the flag and is non-empty. -/
theorem addRule_ok_of_agree (m : RuleMerger) (out : String) (r : Rule)
    (h : m.rules = [] ∨ m.is_double_colon = r.is_double_colon) :
    ∃ m', m.addRule out r = .ok m'
      ∧ m'.is_double_colon =
          (if m.rules.isEmpty then r.is_double_colon else m.is_double_colon)
      ∧ m'.rules ≠ [] := by
  unfold RuleMerger.addRule
  rw [if_neg]
  · refine ⟨_, rfl, ?_, ?_⟩
    · simp only [apply_ite (RuleMerger.is_double_colon)]
      split <;> split <;> simp_all
    · simp only [apply_ite (RuleMerger.rules)]
      split <;> split <;> simp_all
  · rcases h with h | h <;> simp [h]

/-- Folding `addRule` over rules that all agree with a non-empty merger's
flag never errors. -/
theorem addRules_fold_ok (out : String) (f : Bool) :
    ∀ (rs : List Rule) (m : RuleMerger), m.is_double_colon = f → m.rules ≠ [] →
    (∀ r ∈ rs, r.is_double_colon = f) →
    ∃ m', rs.foldlM (fun m r => m.addRule out r) m = .ok m'
      ∧ m'.is_double_colon = f ∧ m'.rules ≠ [] := by
  intro rs
  induction rs with
  | nil => exact fun m hf hne _ => ⟨m, rfl, hf, hne⟩
  | cons r rest ih =>
    intro m hf hne hall
    obtain ⟨m', heq, hflag, hne'⟩ :=
      addRule_ok_of_agree m out r (Or.inr (by rw [hf, hall r (by simp)]))
    rw [List.foldlM_cons, heq]
    have hflg : m'.is_double_colon = f := by
      rw [hflag, if_neg (by simpa using hne)]
      exact hf
    obtain ⟨m'', heq', h2, h3⟩ :=
      ih m' hflg hne' (fun x hx => hall x (by simp [hx]))
    exact ⟨m'', by simpa [heq'], h2, h3⟩

/-- Folding `addRule` over a list containing a rule whose flag disagrees
with a non-empty merger's flag reports the mixing error. -/
theorem addRules_fold_mismatch (out : String) (f : Bool) :
    ∀ (rs : List Rule) (m : RuleMerger), m.is_double_colon = f → m.rules ≠ [] →
    (∃ r ∈ rs, r.is_double_colon ≠ f) →
    rs.foldlM (fun m r => m.addRule out r) m =
      .error ("*** target file `" ++ out ++ "' has both : and :: entries.") := by
  intro rs
  induction rs with
  | nil => rintro m _ _ ⟨r, hr, _⟩; exact absurd hr (by simp)
  | cons r rest ih =>
    rintro m hf hne ⟨r0, hr0mem, hr0⟩
    by_cases hr : r.is_double_colon = f
    · obtain ⟨m', heq, hflag, hne'⟩ :=
        addRule_ok_of_agree m out r (Or.inr (by rw [hf, hr]))
      rw [List.foldlM_cons, heq]
      have hflg : m'.is_double_colon = f := by
        rw [hflag, if_neg (by simpa using hne)]
        exact hf
      have hmem : r0 ∈ rest := by
        rcases List.mem_cons.mp hr0mem with h | h
        · exact absurd (h ▸ hr0) (by simp [hr])
        · exact h
      simpa using ih m' hflg hne' ⟨r0, hmem, hr0⟩
    · rw [List.foldlM_cons,
        addRule_mismatch m out r hne (by rw [hf]; exact fun hx => hr hx.symm)]
      rfl

/-- C7: for any target, a rule sequence whose double-colon flags disagree
somewhere makes `RuleMerger.addRule` raise the fatal error naming the
target, while any sequence of rules whose flags all agree is accepted
without error. -/
theorem c7_double_colon_mixing (output : String) (rs : List Rule) :
    ((∃ r1 ∈ rs, ∃ r2 ∈ rs, r1.is_double_colon ≠ r2.is_double_colon) →
      addRules output rs =
        .error ("*** target file `" ++ output ++ "' has both : and :: entries."))
    ∧ ((∀ r1 ∈ rs, ∀ r2 ∈ rs, r1.is_double_colon = r2.is_double_colon) →
      ∃ m, addRules output rs = .ok m) := by
  constructor
  · rintro ⟨r1, hm1, r2, hm2, hdiff⟩
    cases rs with
    | nil => exact absurd hm1 (by simp)
    | cons r rest =>
      obtain ⟨m', heq, hflag, hne'⟩ :=
        addRule_ok_of_agree RuleMerger.init output r (Or.inl rfl)
      unfold addRules
      rw [List.foldlM_cons, heq]
      have hflg : m'.is_double_colon = r.is_double_colon := by
        rw [hflag]
        rfl
      have hex : ∃ r0 ∈ rest, r0.is_double_colon ≠ r.is_double_colon := by
        by_cases h1 : r1.is_double_colon = r.is_double_colon
        · refine ⟨r2, ?_, fun hx => hdiff (h1.trans hx.symm)⟩
          rcases List.mem_cons.mp hm2 with h | h
          · exact absurd (h ▸ hdiff) (by simp [h, h1])
          · exact h
        · refine ⟨r1, ?_, h1⟩
          rcases List.mem_cons.mp hm1 with h | h
          · exact absurd (h ▸ h1) (by simp [h])
          · exact h
      simpa using addRules_fold_mismatch output r.is_double_colon rest m' hflg hne' hex
  · intro hall
    cases rs with
    | nil => exact ⟨RuleMerger.init, rfl⟩
    | cons r rest =>
      obtain ⟨m', heq, hflag, hne'⟩ :=
        addRule_ok_of_agree RuleMerger.init output r (Or.inl rfl)
      have hflg : m'.is_double_colon = r.is_double_colon := by
        rw [hflag]
        rfl
      obtain ⟨m'', heq', _, _⟩ :=
        addRules_fold_ok output r.is_double_colon rest m' hflg hne'
          (fun x hx => hall x (by simp [hx]) r (by simp))
      refine ⟨m'', ?_⟩
      unfold addRules
      rw [List.foldlM_cons, heq]
      simpa using heq'

/-- C7 witness: a single-colon and a double-colon rule for target `a`
mix fatally; two single-colon rules are accepted. -/
theorem c7_double_colon_mixing_witness :
    addRules "a" [⟨["a"], [], [], [], [], false, false⟩,
                  ⟨["a"], [], [], [], [], true, false⟩] =
      .error "*** target file `a' has both : and :: entries."
    ∧ ∃ m, addRules "a" [⟨["a"], [], [], [], [], false, false⟩,
                         ⟨["a"], ["b"], [], [], [], false, false⟩] = .ok m := by
  constructor
  · have h := (c7_double_colon_mixing "a"
      [⟨["a"], [], [], [], [], false, false⟩,
       ⟨["a"], [], [], [], [], true, false⟩]).1
    exact h ⟨⟨["a"], [], [], [], [], false, false⟩, by simp,
      ⟨["a"], [], [], [], [], true, false⟩, by simp, by decide⟩
  · exact (c7_double_colon_mixing "a"
      [⟨["a"], [], [], [], [], false, false⟩,
       ⟨["a"], ["b"], [], [], [], false, false⟩]).2 (by decide)

/-! ### C5 development: memoisation and termination of the dep builder -/

/-- Association lookup on a cons cell. -/
theorem alistGet?_cons {α : Type} (k : String) (v : α) (l : List (String × α))
    (s : String) :
    alistGet? ((k, v) :: l) s = if k == s then some v else alistGet? l s := by
  simp only [alistGet?, List.find?_cons]
  split <;> simp_all

/-- A name with no association is absent from the key list. -/
theorem alistGet?_none_not_mem {α : Type} (l : List (String × α)) (s : String)
    (h : alistGet? l s = none) : s ∉ l.map Prod.fst := by
  induction l with
  | nil => simp
  | cons p rest ih =>
    rw [show p = (p.1, p.2) from rfl, alistGet?_cons] at h
    by_cases hp : p.1 == s
    · simp [hp] at h
    · simp only [hp, if_false] at h
      simp only [List.map_cons, List.mem_cons]
      rintro (hs | hs)
      · exact absurd (by simp [hs.symm]) hp
      · exact absurd hs (ih h)

/-- Lookup misses in an appended list miss in the tail. -/
theorem alistGet?_append_none {α : Type} (l1 l2 : List (String × α)) (s : String)
    (h : alistGet? (l1 ++ l2) s = none) : alistGet? l2 s = none := by
  induction l1 with
  | nil => exact h
  | cons p rest ih =>
    rw [List.cons_append, show p = (p.1, p.2) from rfl, alistGet?_cons] at h
    by_cases hp : p.1 == s
    · simp [hp] at h
    · simp only [hp, if_false] at h
      exact ih h

/-- Filtering by a stronger predicate gives a shorter list. -/
theorem length_filter_mono {α : Type} (p q : α → Bool) (l : List α)
    (h : ∀ a, p a = true → q a = true) :
    (l.filter p).length ≤ (l.filter q).length := by
  induction l with
  | nil => simp
  | cons a rest ih =>
    by_cases hp : p a
    · simp [List.filter_cons, hp, h a hp]
      omega
    · simp only [List.filter_cons, hp, if_false]
      by_cases hq : q a <;> simp [hq] <;> omega

/-- Memoising a fresh universe symbol decreases the termination measure by
exactly one. -/
theorem missing_filter_cons (done : List (String × Nat))
    (out : String) (id : Nat) (hnone : alistGet? done out = none) :
    ∀ (l : List String), l.Nodup → out ∈ l →
    (l.filter (fun s => (alistGet? ((out, id) :: done) s).isNone)).length + 1 =
    (l.filter (fun s => (alistGet? done s).isNone)).length := by
  intro l
  induction l with
  | nil => intro _ hdd; exact absurd hdd (by simp)
  | cons a rest ih =>
    intro hnd hdd
    rcases List.mem_cons.mp hdd with heq | hmem2
    · subst heq
      have hnotin : out ∉ rest := (List.nodup_cons.mp hnd).1
      have hself : (alistGet? ((out, id) :: done) out).isNone = false := by
        rw [alistGet?_cons, if_pos (by simp)]
        rfl
      have hown : (alistGet? done out).isNone = true := by
        rw [hnone]
        rfl
      simp only [List.filter_cons, hself, hown, Bool.false_eq_true, if_false,
        if_true, List.length_cons]
      have hsame : rest.filter
            (fun s => (alistGet? ((out, id) :: done) s).isNone) =
          rest.filter (fun s => (alistGet? done s).isNone) := by
        apply List.filter_congr
        intro x hx
        rw [alistGet?_cons, if_neg]
        simp only [beq_iff_eq]
        rintro rfl
        exact hnotin hx
      rw [hsame]
    · have ha : a ≠ out := by
        rintro rfl
        exact (List.nodup_cons.mp hnd).1 hmem2
      have hrw : (alistGet? ((out, id) :: done) a).isNone =
          (alistGet? done a).isNone := by
        rw [alistGet?_cons, if_neg (by simp [Ne.symm ha])]
      simp only [List.filter_cons, hrw]
      have hih := ih (List.nodup_cons.mp hnd).2 hmem2
      by_cases hcase : (alistGet? done a).isNone = true
      · simp only [hcase, if_true, List.length_cons]
        omega
      · have hb : (alistGet? done a).isNone = false := by
          cases hx : (alistGet? done a) with
          | none => exact absurd (by rw [hx]; rfl) hcase
          | some _ => rfl
        simp only [hb, Bool.false_eq_true, if_false]
        omega

/-- Memoising a fresh universe symbol decreases the termination measure by
exactly one. -/
theorem missingCount_cons (u : List String) (done : List (String × Nat))
    (out : String) (id : Nat) (hmem : out ∈ u)
    (hnone : alistGet? done out = none) :
    missingCount u ((out, id) :: done) + 1 = missingCount u done :=
  missing_filter_cons done out id hnone u.dedup (List.nodup_dedup u)
    (List.mem_dedup.mpr hmem)

/-- Growing the memo map never increases the termination measure. -/
theorem missingCount_mono (u : List String) (pre done : List (String × Nat)) :
    missingCount u (pre ++ done) ≤ missingCount u done := by
  unfold missingCount
  apply length_filter_mono
  intro s hs
  simp only [Option.isNone_iff_eq_none] at hs ⊢
  exact alistGet?_append_none pre done s hs

/-- The edge-building loop only grows the memo map (given the recursive
builder does). -/
theorem buildEdgesStep_suffix
    (recur : BState → String → String → BRes (Nat × BState))
    (hrec : ∀ st out nb id st', recur st out nb = .ok (id, st') →
      st.done <:+ st'.done) :
    ∀ (ins : List String) (st : BState) (out : String) edges st',
      buildEdgesStep recur st ins out = .ok (edges, st') →
      st.done <:+ st'.done := by
  intro ins
  induction ins with
  | nil =>
    intro st out edges st' h
    simp only [buildEdgesStep] at h
    injection h with h1
    injection h1 with _ h2
    rw [← h2]
  | cons input rest ih =>
    intro st out edges st' h
    simp only [buildEdgesStep] at h
    cases hr : recur st input out with
    | oof => simp only [hr] at h; cases h
    | fail e => simp only [hr] at h; cases h
    | ok p =>
      obtain ⟨cid, st1⟩ := p
      simp only [hr] at h
      cases he : buildEdgesStep recur st1 rest out with
      | oof => simp only [he] at h; cases h
      | fail e => simp only [he] at h; cases h
      | ok q =>
        obtain ⟨edges2, st2⟩ := q
        simp only [he] at h
        injection h with h1
        injection h1 with _ h2
        rw [← h2]
        exact (hrec st input out cid st1 hr).trans (ih st1 out edges2 st2 he)

/-- `buildPlanFresh` only grows the memo map. -/
theorem buildPlanFresh_suffix (b : DepBuilder)
    (recur : BState → String → String → BRes (Nat × BState))
    (hrec : ∀ st out nb id st', recur st out nb = .ok (id, st') →
      st.done <:+ st'.done)
    (st : BState) (out : String) (id : Nat) (st' : BState)
    (h : buildPlanFresh b recur st out = .ok (id, st')) :
    st.done <:+ st'.done := by
  simp only [buildPlanFresh] at h
  cases hf : fillResult b out (prelimNode b out) with
  | error e => simp only [hf] at h; cases h
  | ok node =>
    simp only [hf] at h
    set st1 : BState :=
      ⟨st.store ++ [prelimNode b out], (out, st.store.length) :: st.done⟩ with hst1
    cases h1 : buildEdgesStep recur st1 node.actual_inputs out with
    | oof => simp only [h1] at h; cases h
    | fail e => simp only [h1] at h; cases h
    | ok p =>
      obtain ⟨deps, st2⟩ := p
      simp only [h1] at h
      cases h2 : buildEdgesStep recur st2 node.actual_order_only_inputs out with
      | oof => simp only [h2] at h; cases h
      | fail e => simp only [h2] at h; cases h
      | ok q =>
        obtain ⟨oo, st3⟩ := q
        simp only [h2] at h
        cases h3 : buildEdgesStep recur st3 node.actual_validations out with
        | oof => simp only [h3] at h; cases h
        | fail e => simp only [h3] at h; cases h
        | ok r =>
          obtain ⟨vals, st4⟩ := r
          simp only [h3] at h
          injection h with h0
          injection h0 with _ hstf
          have hs1 : st.done <:+ st1.done := by
            rw [hst1]
            exact List.suffix_cons _ _
          have hs2 := buildEdgesStep_suffix recur hrec _ st1 out deps st2 h1
          have hs3 := buildEdgesStep_suffix recur hrec _ st2 out oo st3 h2
          have hs4 := buildEdgesStep_suffix recur hrec _ st3 out vals st4 h3
          have hdone : st'.done = st4.done := by rw [← hstf]
          rw [hdone]
          exact ((hs1.trans hs2).trans hs3).trans hs4

/-- `buildPlan` only grows the memo map. -/
theorem buildPlan_suffix (b : DepBuilder) :
    ∀ (fuel : Nat) (st : BState) (out nb : String) (id : Nat) (st' : BState),
      buildPlan b fuel st out nb = .ok (id, st') → st.done <:+ st'.done := by
  intro fuel
  induction fuel with
  | zero =>
    intro st out nb id st' h
    simp only [buildPlan] at h
    cases hm : alistGet? st.done out with
    | some id2 =>
      simp only [hm] at h
      injection h with h1
      injection h1 with _ h2
      rw [← h2]
    | none => simp only [hm] at h; cases h
  | succ f ih =>
    intro st out nb id st' h
    simp only [buildPlan] at h
    cases hm : alistGet? st.done out with
    | some id2 =>
      simp only [hm] at h
      injection h with h1
      injection h1 with _ h2
      rw [← h2]
    | none =>
      simp only [hm] at h
      exact buildPlanFresh_suffix b (buildPlan b f)
        (fun st out nb id st' hh => ih st out nb id st' hh) st out id st' h

/-- The edge-building loop preserves distinctness of the memo keys. -/
theorem buildEdgesStep_nodup
    (recur : BState → String → String → BRes (Nat × BState))
    (hrec : ∀ st out nb id st', recur st out nb = .ok (id, st') →
      (st.done.map Prod.fst).Nodup → (st'.done.map Prod.fst).Nodup) :
    ∀ (ins : List String) (st : BState) (out : String) edges st',
      buildEdgesStep recur st ins out = .ok (edges, st') →
      (st.done.map Prod.fst).Nodup → (st'.done.map Prod.fst).Nodup := by
  intro ins
  induction ins with
  | nil =>
    intro st out edges st' h hnd
    simp only [buildEdgesStep] at h
    injection h with h1
    injection h1 with _ h2
    rw [← h2]
    exact hnd
  | cons input rest ih =>
    intro st out edges st' h hnd
    simp only [buildEdgesStep] at h
    cases hr : recur st input out with
    | oof => simp only [hr] at h; cases h
    | fail e => simp only [hr] at h; cases h
    | ok p =>
      obtain ⟨cid, st1⟩ := p
      simp only [hr] at h
      cases he : buildEdgesStep recur st1 rest out with
      | oof => simp only [he] at h; cases h
      | fail e => simp only [he] at h; cases h
      | ok q =>
        obtain ⟨edges2, st2⟩ := q
        simp only [he] at h
        injection h with h1
        injection h1 with _ h2
        rw [← h2]
        exact ih st1 out edges2 st2 he (hrec st input out cid st1 hr hnd)

/-- `buildPlanFresh`, called on an unmemoised symbol, preserves
distinctness of the memo keys. -/
theorem buildPlanFresh_nodup (b : DepBuilder)
    (recur : BState → String → String → BRes (Nat × BState))
    (hrec : ∀ st out nb id st', recur st out nb = .ok (id, st') →
      (st.done.map Prod.fst).Nodup → (st'.done.map Prod.fst).Nodup)
    (st : BState) (out : String) (id : Nat) (st' : BState)
    (hnone : alistGet? st.done out = none)
    (h : buildPlanFresh b recur st out = .ok (id, st'))
    (hnd : (st.done.map Prod.fst).Nodup) :
    (st'.done.map Prod.fst).Nodup := by
  simp only [buildPlanFresh] at h
  cases hf : fillResult b out (prelimNode b out) with
  | error e => simp only [hf] at h; cases h
  | ok node =>
    simp only [hf] at h
    set st1 : BState :=
      ⟨st.store ++ [prelimNode b out], (out, st.store.length) :: st.done⟩ with hst1
    have hnd1 : (st1.done.map Prod.fst).Nodup := by
      rw [hst1]
      simp only [List.map_cons, List.nodup_cons]
      exact ⟨alistGet?_none_not_mem st.done out hnone, hnd⟩
    cases h1 : buildEdgesStep recur st1 node.actual_inputs out with
    | oof => simp only [h1] at h; cases h
    | fail e => simp only [h1] at h; cases h
    | ok p =>
      obtain ⟨deps, st2⟩ := p
      simp only [h1] at h
      cases h2 : buildEdgesStep recur st2 node.actual_order_only_inputs out with
      | oof => simp only [h2] at h; cases h
      | fail e => simp only [h2] at h; cases h
      | ok q =>
        obtain ⟨oo, st3⟩ := q
        simp only [h2] at h
        cases h3 : buildEdgesStep recur st3 node.actual_validations out with
        | oof => simp only [h3] at h; cases h
        | fail e => simp only [h3] at h; cases h
        | ok r =>
          obtain ⟨vals, st4⟩ := r
          simp only [h3] at h
          injection h with h0
          injection h0 with _ hstf
          have hnd2 := buildEdgesStep_nodup recur hrec _ st1 out deps st2 h1 hnd1
          have hnd3 := buildEdgesStep_nodup recur hrec _ st2 out oo st3 h2 hnd2
          have hnd4 := buildEdgesStep_nodup recur hrec _ st3 out vals st4 h3 hnd3
          have hdone : st'.done = st4.done := by rw [← hstf]
          rw [hdone]
          exact hnd4

/-- `buildPlan` preserves distinctness of the memo keys: at most one
`DepNode` is ever memoised per target symbol. -/
theorem buildPlan_nodup (b : DepBuilder) :
    ∀ (fuel : Nat) (st : BState) (out nb : String) (id : Nat) (st' : BState),
      buildPlan b fuel st out nb = .ok (id, st') →
      (st.done.map Prod.fst).Nodup → (st'.done.map Prod.fst).Nodup := by
  intro fuel
  induction fuel with
  | zero =>
    intro st out nb id st' h hnd
    simp only [buildPlan] at h
    cases hm : alistGet? st.done out with
    | some id2 =>
      simp only [hm] at h
      injection h with h1
      injection h1 with _ h2
      rw [← h2]
      exact hnd
    | none => simp only [hm] at h; cases h
  | succ f ih =>
    intro st out nb id st' h hnd
    simp only [buildPlan] at h
    cases hm : alistGet? st.done out with
    | some id2 =>
      simp only [hm] at h
      injection h with h1
      injection h1 with _ h2
      rw [← h2]
      exact hnd
    | none =>
      simp only [hm] at h
      exact buildPlanFresh_nodup b (buildPlan b f)
        (fun st out nb id st' hh => ih st out nb id st' hh)
        st out id st' hm h hnd

/-- Writing a key then reading it back. -/
theorem alistGet?_set_eq {α : Type} (l : List (String × α)) (k : String) (v : α) :
    alistGet? (alistSet l k v) k = some v := by
  unfold alistSet
  by_cases hany : l.any (fun p => p.1 == k)
  · rw [if_pos hany]
    induction l with
    | nil => simp at hany
    | cons p rest ih =>
      cases hp : (p.1 == k) with
      | true =>
        simp only [List.map_cons, hp, if_true]
        rw [alistGet?_cons, if_pos (by simp)]
      | false =>
        simp only [List.map_cons, hp, Bool.false_eq_true, if_false]
        rw [show p = (p.1, p.2) from rfl, alistGet?_cons, if_neg (by simp [hp])]
        exact ih (by simpa [hp] using hany)
  · rw [if_neg hany]
    induction l with
    | nil => rw [List.nil_append, alistGet?_cons, if_pos (by simp)]
    | cons p rest ih =>
      have hp : (p.1 == k) = false := by
        cases hx : (p.1 == k)
        · rfl
        · exact absurd (by simp [List.any_cons, hx]) hany
      rw [List.cons_append, show p = (p.1, p.2) from rfl, alistGet?_cons,
        if_neg (by simp [hp])]
      exact ih (fun hc => hany (by simp [List.any_cons]; right; simpa using hc))

/-- Writing one key leaves other keys' lookups unchanged. -/
theorem alistGet?_set_ne {α : Type} (l : List (String × α)) (k : String) (v : α)
    (s : String) (hs : s ≠ k) :
    alistGet? (alistSet l k v) s = alistGet? l s := by
  unfold alistSet
  by_cases hany : l.any (fun p => p.1 == k)
  · rw [if_pos hany]
    clear hany
    induction l with
    | nil => rfl
    | cons p rest ih =>
      cases hp : (p.1 == k) with
      | true =>
        simp only [List.map_cons, hp, if_true]
        rw [alistGet?_cons, show p = (p.1, p.2) from rfl, alistGet?_cons]
        have hpk : p.1 = k := by simpa using hp
        have hp1 : (p.1 == s) = false := by
          rw [hpk]
          exact beq_eq_false_iff_ne.mpr (Ne.symm hs)
        have hks : ((k == s) : Bool) = false := beq_eq_false_iff_ne.mpr (Ne.symm hs)
        rw [if_neg (by simp [hks]), if_neg (by simp [hp1])]
        exact ih
      | false =>
        simp only [List.map_cons, hp, Bool.false_eq_true, if_false]
        rw [show p = (p.1, p.2) from rfl, alistGet?_cons, alistGet?_cons]
        cases hps : (p.1 == s) with
        | true => rfl
        | false => exact ih
  · rw [if_neg hany]
    induction l with
    | nil =>
      rw [List.nil_append, alistGet?_cons, if_neg (by simp [Ne.symm hs])]
    | cons p rest ih =>
      have hp : (p.1 == k) = false := by
        cases hx : (p.1 == k)
        · rfl
        · exact absurd (by simp [List.any_cons, hx]) hany
      rw [List.cons_append, show p = (p.1, p.2) from rfl, alistGet?_cons,
        alistGet?_cons]
      cases hps : (p.1 == s) with
      | true => rfl
      | false =>
        exact ih (fun hc => hany (by simp [List.any_cons]; right; simpa using hc))

/-- A successful `addRule` appends the new rule to the stored list, keeps
the validations, and makes the primary rule either the old one or the new
rule. -/
theorem addRule_shape (m : RuleMerger) (out : String) (r : Rule)
    (m' : RuleMerger) (h : m.addRule out r = .ok m') :
    (∃ k, m'.rules = m.rules ++ [(k, r)])
    ∧ m'.validations = m.validations
    ∧ (m'.primary_rule = m.primary_rule
        ∨ ∃ k, m'.primary_rule = some (k, r)) := by
  simp only [RuleMerger.addRule] at h
  split at h
  · cases h
  · injection h with h1
    rw [← h1]
    split <;> split <;> split <;>
      first
        | exact ⟨⟨m.rules.length, rfl⟩, rfl, Or.inl rfl⟩
        | exact ⟨⟨m.rules.length, rfl⟩, rfl, Or.inr ⟨m.rules.length, rfl⟩⟩

/-- `populateExplicitRule` preserves the builder invariant. -/
theorem populateExplicitRule_ok (R : List Rule) (r : Rule) (hr : r ∈ R) :
    ∀ (outs : List String) (b0 b : DepBuilder),
    (∀ o ∈ outs, o ∈ r.outputs) → BuilderOK R b0 →
    outs.foldlM (fun b output => do
      let b :=
        if b.first_rule_.isNone && !isSpecialTarget output then
          { b with first_rule_ := some output }
        else b
      let merger := (alistGet? b.rules_ output).getD RuleMerger.init
      let merger ← merger.addRule output r
      pure { b with rules_ := alistSet b.rules_ output merger }) b0 = .ok b →
    BuilderOK R b := by
  intro outs
  induction outs with
  | nil =>
    intro b0 b _ hok h
    injection h with h1
    rw [← h1]
    exact hok
  | cons out rest ih =>
    intro b0 b houts hok h
    rw [List.foldlM_cons] at h
    set b1 : DepBuilder :=
      if b0.first_rule_.isNone && !isSpecialTarget out then
        { b0 with first_rule_ := some out }
      else b0 with hb1
    have hok1 : BuilderOK R b1 := by
      rw [hb1]
      split
      · refine ⟨?_, ?_⟩
        · intro s m hm
          exact hok.1 s m hm
        · intro s hsf
          simp only at hsf
          rw [Option.some_inj] at hsf
          exact ⟨r, hr, hsf ▸ houts out (by simp)⟩
      · exact hok
    set m0 : RuleMerger := (alistGet? b1.rules_ out).getD RuleMerger.init with hm0
    have hm0ok : MergerOK R out m0 := by
      rw [hm0]
      cases hg : alistGet? b1.rules_ out with
      | some mm => simpa [hg] using hok1.1 out mm hg
      | none =>
        simp only [hg, Option.getD_none]
        exact ⟨by simp [RuleMerger.init], by simp [RuleMerger.init], rfl⟩
    cases ha : m0.addRule out r with
    | error e =>
      simp only [ha] at h
      cases h
    | ok m1 =>
      simp only [ha] at h
      have hsh := addRule_shape m0 out r m1 ha
      have hm1ok : MergerOK R out m1 := by
        obtain ⟨⟨k, hk⟩, hv, hprim⟩ := hsh
        refine ⟨?_, ?_, ?_⟩
        · intro p hp
          rw [hk] at hp
          rcases List.mem_append.mp hp with hp | hp
          · exact hm0ok.1 p hp
          · have hpr : p = (k, r) := by simpa using hp
            rw [hpr]
            exact ⟨hr, houts out (by simp)⟩
        · intro p hp
          rcases hprim with hp2 | ⟨k2, hp2⟩
          · exact hm0ok.2.1 p (hp2 ▸ hp)
          · rw [hp2] at hp
            rw [Option.some_inj] at hp
            rw [← hp]
            exact ⟨hr, houts out (by simp)⟩
        · rw [hv]
          exact hm0ok.2.2
      refine ih _ b (fun o ho => houts o (by simp [ho])) ?_ (by simpa using h)
      refine ⟨?_, hok1.2⟩
      intro s m hm
      by_cases hs : s = out
      · rw [hs] at hm ⊢
        rw [alistGet?_set_eq] at hm
        rw [Option.some_inj] at hm
        rw [← hm]
        exact hm1ok
      · rw [alistGet?_set_ne _ _ _ _ hs] at hm
        exact hok1.1 s m hm

/-- `populateRules` establishes the builder invariant. -/
theorem populateRules_ok (rules : List Rule) (b : DepBuilder)
    (h : populateRules rules = .ok b) : BuilderOK rules b := by
  unfold populateRules at h
  suffices hgen : ∀ (rs : List Rule) (b0 bb : DepBuilder), (∀ x ∈ rs, x ∈ rules) →
      BuilderOK rules b0 →
      rs.foldlM (fun b rule =>
        if rule.outputs.isEmpty then pure b else populateExplicitRule b rule)
        b0 = .ok bb →
      BuilderOK rules bb by
    refine hgen rules ⟨[], none, [], []⟩ b (fun x hx => hx) ?_ h
    exact And.intro (fun s m hm => absurd hm (by simp [alistGet?]))
      (fun s hs => by simp at hs)
  intro rs
  induction rs with
  | nil =>
    intro b0 bb _ hok hh
    injection hh with h1
    rw [← h1]
    exact hok
  | cons r rest ih =>
    intro b0 bb hmem hok hh
    rw [List.foldlM_cons] at hh
    by_cases hout : r.outputs.isEmpty
    · rw [if_pos hout] at hh
      exact ih b0 bb (fun x hx => hmem x (by simp [hx])) hok (by simpa using hh)
    · rw [if_neg hout] at hh
      cases hpe : populateExplicitRule b0 r with
      | error e =>
        rw [hpe] at hh
        cases hh
      | ok b1 =>
        rw [hpe] at hh
        have hb1 : BuilderOK rules b1 :=
          populateExplicitRule_ok rules r (hmem r (by simp)) r.outputs b0 b1
            (fun o ho => ho) hok hpe
        exact ih b1 bb (fun x hx => hmem x (by simp [hx])) hb1 (by simpa using hh)

/-- One rule-fill step only adds dependency symbols from `ruleChildren`. -/
theorem fillDepNodeFromRule_bound (u : List String) (isDC : Bool)
    (out : String) (r : Rule) (nd nd' : DNode)
    (hr : ∀ x ∈ ruleChildren r out, x ∈ u)
    (h : fillDepNodeFromRule isDC out r nd = .ok nd')
    (hnd : nodeBound u nd) : nodeBound u nd' ∧ nd'.actual_validations = nd.actual_validations := by
  simp only [fillDepNodeFromRule, bind, Except.bind] at h
  cases hi : applyOutputPattern r out r.inputs with
  | error e => simp only [hi] at h; cases h
  | ok ins =>
    simp only [hi] at h
    cases ho : applyOutputPattern r out r.order_only_inputs with
    | error e => simp only [ho] at h; cases h
    | ok oo =>
      simp only [ho] at h
      have hins : ∀ x ∈ ins, x ∈ u := by
        intro x hx
        refine hr x ?_
        unfold ruleChildren
        rw [hi]
        exact List.mem_append.mpr (Or.inl (by simpa using hx))
      have hoo : ∀ x ∈ oo, x ∈ u := by
        intro x hx
        refine hr x ?_
        unfold ruleChildren
        rw [ho]
        exact List.mem_append.mpr (Or.inr (by simpa using hx))
      have hbound : nodeBound u
          { (if isDC then { nd with cmds := nd.cmds ++ r.cmds } else nd) with
            actual_inputs :=
              (if isDC then { nd with cmds := nd.cmds ++ r.cmds } else nd).actual_inputs
                ++ ins,
            actual_order_only_inputs :=
              (if isDC then { nd with cmds := nd.cmds ++ r.cmds } else nd).actual_order_only_inputs
                ++ oo } := by
        have hb : nodeBound u (if isDC then { nd with cmds := nd.cmds ++ r.cmds } else nd) := by
          split
          · exact hnd
          · exact hnd
        refine ⟨?_, ?_, hb.2.2⟩
        · intro x hx
          rcases List.mem_append.mp hx with hx | hx
          · exact hb.1 x hx
          · exact hins x hx
        · intro x hx
          rcases List.mem_append.mp hx with hx | hx
          · exact hb.2.1 x hx
          · exact hoo x hx
      split at h
      · split at h
        · cases h
        · injection h with h1
          rw [← h1]
          exact ⟨⟨hbound.1, hbound.2.1, hbound.2.2⟩, by split <;> rfl⟩
      · injection h with h1
        rw [← h1]
        exact ⟨hbound, by split <;> rfl⟩

/-- The non-primary loop of `fillDepNode` keeps dependency symbols inside
the universe. -/
theorem fillDepNode_fold_bound (u : List String) (m : RuleMerger) (out : String) :
    ∀ (ps : List (Nat × Rule)) (nd nd' : DNode),
    (∀ p ∈ ps, ∀ x ∈ ruleChildren p.2 out, x ∈ u) →
    ps.foldlM (fun nd idRule =>
      if (m.primary_rule.map (·.1)) = some idRule.1 then pure nd
      else fillDepNodeFromRule m.is_double_colon out idRule.2 nd) nd = .ok nd' →
    nodeBound u nd → nodeBound u nd' := by
  intro ps
  induction ps with
  | nil =>
    intro nd nd' _ h hnd
    injection h with h1
    rw [← h1]
    exact hnd
  | cons p rest ih =>
    intro nd nd' hps h hnd
    rw [List.foldlM_cons] at h
    by_cases hskip : (m.primary_rule.map (·.1)) = some p.1
    · rw [if_pos hskip] at h
      exact ih nd nd' (fun q hq => hps q (by simp [hq])) (by simpa using h) hnd
    · rw [if_neg hskip] at h
      cases hf : fillDepNodeFromRule m.is_double_colon out p.2 nd with
      | error e =>
        rw [hf] at h
        simp only [bind, Except.bind] at h
        cases h
      | ok nd1 =>
        rw [hf] at h
        simp only [bind, Except.bind] at h
        have hb := fillDepNodeFromRule_bound u m.is_double_colon out p.2 nd nd1
          (hps p (by simp)) hf hnd
        exact ih nd1 nd' (fun q hq => hps q (by simp [hq])) h hb.1

/-- `fillDepNode` starting from the fresh node keeps all dependency
symbols inside the universe determined by the program's rules. -/
theorem fillDepNode_bound (rules : List Rule) (targets : List String)
    (m : RuleMerger) (out : String) (nd nd' : DNode)
    (hm : MergerOK rules out m)
    (h : m.fillDepNode out nd = .ok nd')
    (hnd : nodeBound (universeU rules targets) nd) :
    nodeBound (universeU rules targets) nd' := by
  have hchild : ∀ (r : Rule), r ∈ rules → out ∈ r.outputs →
      ∀ x ∈ ruleChildren r out, x ∈ universeU rules targets := by
    intro r hr hout x hx
    unfold universeU
    refine List.mem_append.mpr (Or.inr ?_)
    rw [List.mem_flatMap]
    exact ⟨r, hr, List.mem_flatMap.mpr ⟨out, hout, hx⟩⟩
  cases hp : m.primary_rule with
  | none =>
    simp only [RuleMerger.fillDepNode, hp, bind, Except.bind, pure,
      Except.pure] at h
    cases hfold : fillDepNodeLoop m out nd with
    | error e => simp only [hfold] at h; cases h
    | ok nd2 =>
      simp only [hfold] at h
      injection h with h1
      rw [← h1]
      have hb2 := fillDepNode_fold_bound (universeU rules targets) m out m.rules nd nd2
        (fun p hpp => hchild p.2 (hm.1 p hpp).1 (hm.1 p hpp).2) hfold hnd
      refine ⟨hb2.1, hb2.2.1, ?_⟩
      intro x hx
      rcases List.mem_append.mp hx with hx | hx
      · exact hb2.2.2 x hx
      · rw [hm.2.2] at hx
        cases hx
  | some primary =>
    simp only [RuleMerger.fillDepNode, hp, bind, Except.bind, pure,
      Except.pure] at h
    cases hfr : fillDepNodeFromRule m.is_double_colon out primary.2 nd with
    | error e => simp only [hfr] at h; cases h
    | ok nd1 =>
      simp only [hfr] at h
      have hb1 := fillDepNodeFromRule_bound (universeU rules targets)
        m.is_double_colon out primary.2 nd nd1
        (hchild primary.2 (hm.2.1 primary hp).1 (hm.2.1 primary hp).2) hfr hnd
      cases hfold : fillDepNodeLoop m out { nd1 with cmds := primary.2.cmds } with
      | error e => simp only [hfold] at h; cases h
      | ok nd2 =>
        simp only [hfold] at h
        injection h with h1
        rw [← h1]
        have hmid : nodeBound (universeU rules targets)
            { nd1 with cmds := primary.2.cmds } :=
          ⟨hb1.1.1, hb1.1.2.1, hb1.1.2.2⟩
        have hb2 := fillDepNode_fold_bound (universeU rules targets) m out m.rules
          { nd1 with cmds := primary.2.cmds } nd2
          (fun p hpp => hchild p.2 (hm.1 p hpp).1 (hm.1 p hpp).2) hfold hmid
        refine ⟨hb2.1, hb2.2.1, ?_⟩
        intro x hx
        rcases List.mem_append.mp hx with hx | hx
        · exact hb2.2.2 x hx
        · rw [hm.2.2] at hx
          cases hx

/-- Filling the fresh node keeps all dependency symbols in the universe. -/
theorem fillResult_bound (rules : List Rule) (targets : List String)
    (b : DepBuilder) (hok : BuilderOK rules b) (out : String) (node : DNode)
    (h : fillResult b out (prelimNode b out) = .ok node) :
    nodeBound (universeU rules targets) node := by
  have hpre : nodeBound (universeU rules targets) (prelimNode b out) := by
    refine ⟨?_, ?_, ?_⟩ <;> (intro x hx; exact absurd hx (by simp [prelimNode]))
  unfold fillResult at h
  cases hg : alistGet? b.rules_ out with
  | none =>
    rw [hg] at h
    injection h with h1
    rw [← h1]
    exact hpre
  | some merger =>
    rw [hg] at h
    exact fillDepNode_bound rules targets merger out (prelimNode b out) node
      (hok.1 out merger hg) h hpre

/-- The edge-building loop cannot exhaust fuel when each symbol lies in
the universe and the recursive builder has fuel beyond the measure. -/
theorem buildEdgesStep_not_oof (u : List String)
    (recur : BState → String → String → BRes (Nat × BState)) (f : Nat)
    (hsuffix : ∀ st out nb id st', recur st out nb = .ok (id, st') →
      st.done <:+ st'.done)
    (hno : ∀ st out nb, out ∈ u → f > missingCount u st.done →
      recur st out nb ≠ .oof) :
    ∀ (ins : List String) (st : BState) (out : String),
      (∀ x ∈ ins, x ∈ u) → f > missingCount u st.done →
      buildEdgesStep recur st ins out ≠ .oof := by
  intro ins
  induction ins with
  | nil =>
    intro st out _ _ hcontra
    simp [buildEdgesStep] at hcontra
  | cons input rest ih =>
    intro st out hins hf hcontra
    simp only [buildEdgesStep] at hcontra
    cases hr : recur st input out with
    | oof => exact hno st input out (hins input (by simp)) hf hr
    | fail e => simp only [hr] at hcontra; cases hcontra
    | ok p =>
      obtain ⟨cid, st1⟩ := p
      simp only [hr] at hcontra
      obtain ⟨pre, hpre⟩ := hsuffix st input out cid st1 hr
      have hf1 : f > missingCount u st1.done := by
        have := missingCount_mono u pre st.done
        rw [hpre] at this
        omega
      cases he : buildEdgesStep recur st1 rest out with
      | oof => exact ih st1 out (fun x hx => hins x (by simp [hx])) hf1 he
      | fail e => simp only [he] at hcontra; cases hcontra
      | ok q =>
        obtain ⟨e2, s2⟩ := q
        simp only [he] at hcontra
        cases hcontra

/-- `buildPlanFresh` cannot exhaust fuel when the fresh symbol lies in the
universe, its children do too, and the recursive builder has one less
fuel than the caller. -/
theorem buildPlanFresh_not_oof (rules : List Rule) (targets : List String)
    (b : DepBuilder) (hok : BuilderOK rules b)
    (recur : BState → String → String → BRes (Nat × BState)) (f : Nat)
    (hsuffix : ∀ st out nb id st', recur st out nb = .ok (id, st') →
      st.done <:+ st'.done)
    (hno : ∀ st out nb, out ∈ universeU rules targets →
      f > missingCount (universeU rules targets) st.done → recur st out nb ≠ .oof)
    (st : BState) (out : String)
    (hmem : out ∈ universeU rules targets)
    (hnone : alistGet? st.done out = none)
    (hf : f + 1 > missingCount (universeU rules targets) st.done) :
    buildPlanFresh b recur st out ≠ .oof := by
  intro hcontra
  simp only [buildPlanFresh] at hcontra
  cases hfill : fillResult b out (prelimNode b out) with
  | error e => simp only [hfill] at hcontra; cases hcontra
  | ok node =>
    simp only [hfill] at hcontra
    set u := universeU rules targets with hu
    set st1 : BState :=
      ⟨st.store ++ [prelimNode b out], (out, st.store.length) :: st.done⟩ with hst1
    have hbound := fillResult_bound rules targets b hok out node hfill
    have hm1 : missingCount u st1.done + 1 = missingCount u st.done := by
      rw [hst1]
      exact missingCount_cons u st.done out st.store.length hmem hnone
    have hf1 : f > missingCount u st1.done := by omega
    cases h1 : buildEdgesStep recur st1 node.actual_inputs out with
    | oof =>
      exact buildEdgesStep_not_oof u recur f hsuffix hno node.actual_inputs st1
        out hbound.1 hf1 h1
    | fail e => simp only [h1] at hcontra; cases hcontra
    | ok p =>
      obtain ⟨deps, st2⟩ := p
      simp only [h1] at hcontra
      have hs2 := buildEdgesStep_suffix recur hsuffix node.actual_inputs st1 out
        deps st2 h1
      obtain ⟨pre2, hpre2⟩ := hs2
      have hf2 : f > missingCount u st2.done := by
        have := missingCount_mono u pre2 st1.done
        rw [hpre2] at this
        omega
      cases h2 : buildEdgesStep recur st2 node.actual_order_only_inputs out with
      | oof =>
        exact buildEdgesStep_not_oof u recur f hsuffix hno _ st2 out
          hbound.2.1 hf2 h2
      | fail e => simp only [h2] at hcontra; cases hcontra
      | ok q =>
        obtain ⟨oo, st3⟩ := q
        simp only [h2] at hcontra
        have hs3 := buildEdgesStep_suffix recur hsuffix _ st2 out oo st3 h2
        obtain ⟨pre3, hpre3⟩ := hs3
        have hf3 : f > missingCount u st3.done := by
          have := missingCount_mono u pre3 st2.done
          rw [hpre3] at this
          omega
        cases h3 : buildEdgesStep recur st3 node.actual_validations out with
        | oof =>
          exact buildEdgesStep_not_oof u recur f hsuffix hno _ st3 out
            hbound.2.2 hf3 h3
        | fail e => simp only [h3] at hcontra; cases hcontra
        | ok r =>
          obtain ⟨vals, st4⟩ := r
          simp only [h3] at hcontra
          cases hcontra

/-- `buildPlan` cannot exhaust its fuel while the fuel exceeds the number
of unmemoised universe symbols: the build terminates. -/
theorem buildPlan_not_oof (rules : List Rule) (targets : List String)
    (b : DepBuilder) (hok : BuilderOK rules b) :
    ∀ (fuel : Nat) (st : BState) (out nb : String),
      out ∈ universeU rules targets →
      fuel > missingCount (universeU rules targets) st.done →
      buildPlan b fuel st out nb ≠ .oof := by
  intro fuel
  induction fuel with
  | zero =>
    intro st out nb _ hf
    omega
  | succ f ih =>
    intro st out nb hmem hf hcontra
    simp only [buildPlan] at hcontra
    cases hm : alistGet? st.done out with
    | some id => simp only [hm] at hcontra; cases hcontra
    | none =>
      simp only [hm] at hcontra
      exact buildPlanFresh_not_oof rules targets b hok (buildPlan b f) f
        (fun st out nb id st' hh => buildPlan_suffix b f st out nb id st' hh)
        (fun st out nb hm2 hf2 => ih st out nb hm2 hf2)
        st out hmem hm hf hcontra

/-- `handleSpecialTargets` changes only the phony and restat sets. -/
theorem handleSpecialTargets_fields (b : DepBuilder) :
    (handleSpecialTargets b).rules_ = b.rules_
    ∧ (handleSpecialTargets b).first_rule_ = b.first_rule_ := by
  constructor <;>
    (unfold handleSpecialTargets; split <;> (dsimp only []; split <;> rfl))

/-- With an empty memo map the measure is the deduplicated universe size. -/
theorem missingCount_nil (u : List String) :
    missingCount u [] = u.dedup.length := by
  unfold missingCount
  rw [List.filter_eq_self.mpr]
  intro s _
  rfl

/-- The constructed builder satisfies the population invariant:
`handleSpecialTargets` does not disturb the rule map or default target. -/
theorem makeDepBuilder_ok (rules : List Rule) (b : DepBuilder)
    (h : makeDepBuilder rules = .ok b) : BuilderOK rules b := by
  unfold makeDepBuilder at h
  cases hp : populateRules rules with
  | error e => rw [hp] at h; cases h
  | ok b0 =>
    rw [hp] at h
    simp only [Except.map] at h
    injection h with h1
    have hok := populateRules_ok rules b0 hp
    have hf := handleSpecialTargets_fields b0
    rw [← h1]
    refine ⟨fun s m hm => hok.1 s m ?_, fun s hs => hok.2 s ?_⟩
    · rw [hf.1] at hm
      exact hm
    · rw [hf.2] at hs
      exact hs

/-- A memo hit returns the cached index with the state unchanged, at any
fuel level — the memo check precedes everything else in `buildPlan`. -/
theorem buildPlan_memo_hit (b : DepBuilder) (fuel : Nat) (st : BState)
    (out nb : String) (id : Nat) (h : alistGet? st.done out = some id) :
    buildPlan b fuel st out nb = .ok (id, st) := by
  cases fuel with
  | zero =>
    simp only [buildPlan]
    rw [h]
  | succ f =>
    simp only [buildPlan]
    rw [h]

/-- Any successful build leaves a memo map with pairwise-distinct target
symbols: at most one `DepNode` is memoised per symbol. -/
theorem build_nodup (rules : List Rule) (targets : List String) (fuel : Nat)
    (edges : List (String × Nat)) (st : BState)
    (h : build rules targets fuel = .ok (edges, st)) :
    (st.done.map Prod.fst).Nodup := by
  unfold build at h
  cases hm : makeDepBuilder rules with
  | error e => simp only [hm] at h; cases h
  | ok b =>
    simp only [hm] at h
    cases hf : b.first_rule_ with
    | none => simp only [hf] at h; cases h
    | some first =>
      simp only [hf] at h
      exact buildEdgesStep_nodup (buildPlan b fuel)
        (fun st out nb id st' hh => buildPlan_nodup b fuel st out nb id st' hh)
        _ ⟨[], []⟩ "" edges st h (by simp)

/-- With fuel beyond the universe size the build never exhausts fuel: the
dependency build terminates on every rule set, cyclic ones included. -/
theorem build_not_oof (rules : List Rule) (targets : List String) (fuel : Nat)
    (hfuel : fuel > (universeU rules targets).dedup.length) :
    build rules targets fuel ≠ .oof := by
  intro hcontra
  unfold build at hcontra
  cases hm : makeDepBuilder rules with
  | error e => simp only [hm] at hcontra; cases hcontra
  | ok b =>
    simp only [hm] at hcontra
    cases hf : b.first_rule_ with
    | none => simp only [hf] at hcontra; cases hcontra
    | some first =>
      simp only [hf] at hcontra
      have hok := makeDepBuilder_ok rules b hm
      have htl : ∀ x ∈ (if targets.isEmpty then [first] else targets),
          x ∈ universeU rules targets := by
        intro x hx
        by_cases hte : targets.isEmpty
        · rw [if_pos hte] at hx
          simp only [List.mem_singleton] at hx
          obtain ⟨r, hr, hout⟩ := hok.2 first hf
          rw [hx]
          unfold universeU
          exact List.mem_append.mpr (Or.inl (List.mem_append.mpr
            (Or.inr (List.mem_flatMap.mpr ⟨r, hr, hout⟩))))
        · rw [if_neg hte] at hx
          unfold universeU
          exact List.mem_append.mpr (Or.inl (List.mem_append.mpr (Or.inl hx)))
      have hmc : fuel >
          missingCount (universeU rules targets) (BState.mk [] []).done := by
        show fuel > missingCount (universeU rules targets) []
        rw [missingCount_nil]
        exact hfuel
      exact buildEdgesStep_not_oof (universeU rules targets) (buildPlan b fuel)
        fuel
        (fun st out nb id st' hh => buildPlan_suffix b fuel st out nb id st' hh)
        (fun st out nb hmem hfm =>
          buildPlan_not_oof rules targets b hok fuel st out nb hmem hfm)
        _ ⟨[], []⟩ "" htl hmc hcontra

/-- C5 counterexample: on the cyclic rule set `a: b` / `b: a` the build
terminates and returns successfully, but the node built for `b` — whose
request for `a` re-enters a target already being built — keeps the back
edge `("a", 0)` in its dependency list.  `buildPlan` memoises the real
node (index 0) *before* recursing, so the cyclic request hits an ordinary
memo entry: no PROCESSING sentinel exists in `dep.ts`, no cycle warning
is issued, and the back edge is not dropped. -/
theorem c5_counterexample :
    (match build
        [(⟨["a"], ["b"], [], [], ["cc"], false, false⟩ : Rule),
         (⟨["b"], ["a"], [], [], ["cc2"], false, false⟩ : Rule)]
        ["a"] 10 with
      | .ok (edges, st) =>
        some (edges, st.done,
          st.store.map (fun (n : DNode) => (n.output, n.deps)))
      | _ => none) =
    some ([("a", 0)], [("b", 1), ("a", 0)],
      [("a", [("b", 1)]), ("b", [("a", 0)])]) := rfl

/-- C5: for every rule set and requested target list the dependency
builder memoises at most one `DepNode` per target symbol (the memo keys
of any successful build are pairwise distinct) and terminates even when
the rule graph is cyclic (with fuel beyond the finite symbol universe the
build never exhausts it); a request for a target already in the memo —
including the cyclic case, since the node is memoised before recursing —
returns the cached entry with the state unchanged.  There is no
PROCESSING sentinel and no dropped back edge (see the counterexample). -/
theorem c5_memoised_build_terminates (rules : List Rule)
    (targets : List String) (fuel : Nat)
    (hfuel : fuel > (universeU rules targets).dedup.length) :
    (∀ edges st, build rules targets fuel = .ok (edges, st) →
      (st.done.map Prod.fst).Nodup) ∧
    build rules targets fuel ≠ .oof ∧
    (∀ (b : DepBuilder) (f : Nat) (st : BState) (out nb : String) (id : Nat),
      alistGet? st.done out = some id →
      buildPlan b f st out nb = .ok (id, st)) :=
  ⟨fun edges st h => build_nodup rules targets fuel edges st h,
   build_not_oof rules targets fuel hfuel,
   fun b f st out nb id h => buildPlan_memo_hit b f st out nb id h⟩

/-- The C5 theorem applied to the concrete cyclic rule set at fuel 10. -/
theorem c5_memoised_build_terminates_witness :
    10 > (universeU
      [(⟨["a"], ["b"], [], [], ["cc"], false, false⟩ : Rule),
       (⟨["b"], ["a"], [], [], ["cc2"], false, false⟩ : Rule)]
      ["a"]).dedup.length ∧
    build
      [(⟨["a"], ["b"], [], [], ["cc"], false, false⟩ : Rule),
       (⟨["b"], ["a"], [], [], ["cc2"], false, false⟩ : Rule)]
      ["a"] 10 ≠ BRes.oof :=
  ⟨by decide,
   (c5_memoised_build_terminates
      [(⟨["a"], ["b"], [], [], ["cc"], false, false⟩ : Rule),
       (⟨["b"], ["a"], [], [], ["cc2"], false, false⟩ : Rule)]
      ["a"] 10 (by decide)).2.1⟩

/-- C8: in the command loop of `execNode`, a command whose parsed recipe
prefixes include `-` (so `ignore_error` is set) and whose shell exit
status is non-zero logs `[output] Error N (ignored)` and execution
continues with the remaining commands of the node; a non-zero exit of a
command without the `-` prefix aborts with the error
`*** [output] Error N` carrying the shell exit code. -/
theorem c8_ignore_error_continue_abort (run : String → Nat)
    (out line : String) (rest : List Command)
    (hnz : run (parseCommandPrefixes line).cmd ≠ 0) :
    ((parseCommandPrefixes line).ignore_error = true →
      execCommands run
        (⟨out, (parseCommandPrefixes line).cmd, (parseCommandPrefixes line).echo,
          (parseCommandPrefixes line).ignore_error⟩ :: rest) =
      (execCommands run rest).map (fun q => (q.1 + 1,
        ("[" ++ out ++ "] Error " ++ toString (run (parseCommandPrefixes line).cmd)
          ++ " (ignored)") :: q.2))) ∧
    ((parseCommandPrefixes line).ignore_error = false →
      execCommands run
        (⟨out, (parseCommandPrefixes line).cmd, (parseCommandPrefixes line).echo,
          (parseCommandPrefixes line).ignore_error⟩ :: rest) =
      .error ("*** [" ++ out ++ "] Error "
        ++ toString (run (parseCommandPrefixes line).cmd))) := by
  constructor
  · intro hig
    simp only [execCommands]
    rw [if_pos hnz, if_pos hig]
    cases hrest : execCommands run rest with
    | ok p => simp [Except.map]
    | error e => simp [Except.map]
  · intro hig
    simp only [execCommands]
    rw [if_pos hnz, if_neg (by simp [hig])]

/-- The C8 theorem applied concretely: with a shell where `false` exits 1
and everything else exits 0, the recipe line `-@false` followed by
`echo after` runs both commands and only logs the ignored failure, while
a bare `false` recipe aborts with `*** [all] Error 1`. -/
theorem c8_ignore_error_continue_abort_witness :
    (fun s => if s = "false" then (1 : Nat) else 0)
      (parseCommandPrefixes "-@false").cmd ≠ 0 ∧
    execCommands (fun s => if s = "false" then (1 : Nat) else 0)
      (⟨"all", (parseCommandPrefixes "-@false").cmd,
        (parseCommandPrefixes "-@false").echo,
        (parseCommandPrefixes "-@false").ignore_error⟩ ::
       [⟨"all", "echo after", true, false⟩]) =
      .ok (2, ["[all] Error 1 (ignored)"]) ∧
    execCommands (fun s => if s = "false" then (1 : Nat) else 0)
      [⟨"all", (parseCommandPrefixes "false").cmd,
        (parseCommandPrefixes "false").echo,
        (parseCommandPrefixes "false").ignore_error⟩] =
      .error "*** [all] Error 1" := by
  refine ⟨by decide, ?_, ?_⟩
  · have h := c8_ignore_error_continue_abort
      (fun s => if s = "false" then (1 : Nat) else 0) "all" "-@false"
      [⟨"all", "echo after", true, false⟩] (by decide)
    rw [h.1 rfl]
    rfl
  · have h := c8_ignore_error_continue_abort
      (fun s => if s = "false" then (1 : Nat) else 0) "all" "false"
      [] (by decide)
    rw [h.2 rfl]
    rfl

end Kati
